import Mathlib

/-!
# tektask: blocking queue, resolver workers and the orchestrator

A shallow embedding of `lib/queue/blocking_queue.h`,
`lib/resolver/quadratic_resolver.h` (the worker loop and `resolve`),
`lib/cli/cli_parser.cpp` and `app/main.cpp`.

* The state of a `BlockingQueue<T>` is the pair of its members `m_queue` and
  `m_stopped`; `m_mutex` and `m_cv` only make each member function one atomic
  step on that pair, so every member function is a function on the pair.
* `m_cv.wait(lock, pred)` returns only in a state in which `pred` holds.  A call
  of `waitPop` in a state where `pred` is false therefore has no result in that
  state (`none`): the caller stays blocked until another thread changes the state.
* Threads are interleaved at the granularity of these atomic steps; an
  interleaving is a list of thread choices (a schedule).
* The run model takes the compute function as a parameter `Triplet → String`, so its
  theorems hold for every compute function; `resolve` itself is embedded separately,
  over an integer model of the finite values of `double`.
* `int64_t` values are integers; where the range matters it is a premise (`isInt64`).
-/

namespace tektask

/-! ## lib/queue/blocking_queue.h -/

/-- State of a `BlockingQueue<T>`: the members `m_queue` (head of the list is
`front()`) and `m_stopped`. -/
structure BlockingQueue (α : Type) where
  m_queue : List α
  m_stopped : Bool
deriving DecidableEq, Repr

namespace BlockingQueue

variable {α : Type}

/-- The defaulted constructor `BlockingQueue()`: empty `m_queue`, `m_stopped{false}`. -/
def create : BlockingQueue α := ⟨[], false⟩

/-- Member `waitPush(item)`: `m_queue.push(item)` under the lock (the notification
changes no state). -/
def waitPush (q : BlockingQueue α) (item : α) : BlockingQueue α :=
  { q with m_queue := q.m_queue ++ [item] }

/-- Member `shutdown()`: `m_stopped = true` under the lock. -/
def shutdown (q : BlockingQueue α) : BlockingQueue α :=
  { q with m_stopped := true }

/-- The predicate handed to `m_cv.wait`: `!m_queue.empty() || m_stopped`. -/
def waitPredicate (q : BlockingQueue α) : Bool :=
  !q.m_queue.isEmpty || q.m_stopped

/-- Member `bool waitPop(T& out)`.  The argument `out` is the caller's variable as it
is on entry; a result `some (r, out1, q1)` is the returned `bool`, the variable after
the call and the queue after the call.  `none` means the wait predicate is false in
`q`, so the call does not return in this state.  The last `none` is `front()` on an
empty queue, which the two tests before it exclude. -/
def waitPop (q : BlockingQueue α) (out : α) : Option (Bool × α × BlockingQueue α) :=
  if waitPredicate q then
    if q.m_stopped && q.m_queue.isEmpty then
      some (false, out, q)
    else
      match q.m_queue with
      | front :: rest => some (true, front, { q with m_queue := rest })
      | [] => none
  else
    none

/-- The loop `for (x : xs) q.waitPush(x);` of the tests and of `main`. -/
def pushAll (q : BlockingQueue α) (xs : List α) : BlockingQueue α :=
  xs.foldl waitPush q

/-- The first argument counts consecutive `waitPop` calls made by one caller on the
same variable `out`, with no other thread stepping in between: the result lists, per
call, the returned `bool` and the variable after the call.  `none` when one of the
calls blocks. -/
def popMany : Nat → BlockingQueue α → α → Option (List (Bool × α) × BlockingQueue α)
  | 0, q, _ => some ([], q)
  | n + 1, q, out =>
    match waitPop q out with
    | none => none
    | some (r, out1, q1) =>
      match popMany n q1 out1 with
      | none => none
      | some (rs, q2) => some ((r, out1) :: rs, q2)

end BlockingQueue

/-! ## lib/utils/constants/constants.h, lib/utils/types/types.h -/

/-- Constant `INVALID_TRIPLET_ID{-1}`. -/
def INVALID_TRIPLET_ID : Int := -1

/-- Struct `Triplet`; the `int64_t` members are integers (no arithmetic is done on them
by the queue, the worker loop or `main`). -/
structure Triplet where
  a : Int := 0
  b : Int := 0
  c : Int := 0
  id : Int := INVALID_TRIPLET_ID
deriving DecidableEq, Repr

/-- Modelled from the spec: the declaration of `EquationSolveResult` is not among the
sources.  The code only value-initialises it (`ResolveBuffer output(n)`), assigns its
member `result` a `std::string` and prints that member; the spec calls a slot an
optional Result, empty until written.  So: one member `result`, empty by default. -/
structure EquationSolveResult where
  result : String := ""
deriving DecidableEq, Repr

/-! ## lib/resolver/quadratic_resolver.h: `operator()` -/

/-- Where one `QuadraticEquationResolver::operator()` thread is in its loop. -/
inductive ResolverPc where
  /-- At `InputType item; m_queue.waitPop(item)`. -/
  | atWaitPop
  /-- After `waitPop` returned `true` with `item`, before the store of the result. -/
  | atStore (item : Triplet)
  /-- After `waitPop` returned `false`: `break`, the thread function has returned. -/
  | exited
deriving DecidableEq, Repr

/-- The statement `m_resolveStorage[item.id].result = std::move(result)`.  `operator[]`
does no bounds check: for an `id` that is not an index of the vector (a negative `id`
converts to a `size_t` beyond every vector length) the behaviour is undefined, which is
`none` here; the code has no assertion or abort on that path. -/
def storeResult (m_resolveStorage : List EquationSolveResult) (id : Int) (result : String) :
    Option (List EquationSolveResult) :=
  if 0 ≤ id ∧ id < m_resolveStorage.length then
    some (m_resolveStorage.set id.toNat { result := result })
  else
    none

/-- One atomic step of a run, as seen from outside.  `w` is the position of the worker
thread in `resolveConsumers`. -/
inductive Event where
  | pushed (item : Triplet)
  | shutdown
  /-- Worker `w`: `waitPop` returned `true` and handed over `item`. -/
  | popped (w : Nat) (item : Triplet)
  /-- Worker `w`: `waitPop` returned `false`. -/
  | drained (w : Nat)
  /-- Worker `w` assigned `m_resolveStorage[index].result`. -/
  | stored (w : Nat) (index : Int)
deriving DecidableEq, Repr

/-- The threads of a run: the one that pushes and shuts down (the main thread in
`main`, the test body in the tests) and the worker threads. -/
inductive Thread where
  | producer
  | resolver (w : Nat)
deriving DecidableEq, Repr

/-- Shared state of a run of resolvers over one queue and one result buffer, as set up
by `main` and by the test `Resolve_1MSetOfPredefinedCases`.  `history` is a history
variable, not program state: the steps taken so far, newest first. -/
structure Pipeline where
  input : BlockingQueue Triplet
  output : List EquationSolveResult
  toPush : List Triplet
  resolveConsumers : List ResolverPc
  history : List Event
deriving DecidableEq, Repr

namespace Pipeline

/-- Next step of the pushing thread: `input.waitPush(triplet)` for the next triplet,
then one `input.shutdown()`, then nothing more (it only joins). -/
def producerStep (s : Pipeline) : Option Pipeline :=
  match s.toPush with
  | t :: rest =>
    some { s with input := s.input.waitPush t, toPush := rest,
                  history := Event.pushed t :: s.history }
  | [] =>
    if s.input.m_stopped then none
    else some { s with input := s.input.shutdown, history := Event.shutdown :: s.history }

/-- Next atomic step of worker `w` in `operator()`: either the completion of
`m_queue.waitPop(item)` on a fresh `item` (none while it blocks), or
`resolve(item)` followed by the store into `m_resolveStorage[item.id]`. -/
def resolverStep (resolve : Triplet → String) (s : Pipeline) (w : Nat) : Option Pipeline :=
  match s.resolveConsumers[w]? with
  | none => none
  | some ResolverPc.exited => none
  | some ResolverPc.atWaitPop =>
    match s.input.waitPop {} with
    | none => none
    | some (true, item, q) =>
      some { s with input := q,
                    resolveConsumers := s.resolveConsumers.set w (ResolverPc.atStore item),
                    history := Event.popped w item :: s.history }
    | some (false, _, q) =>
      some { s with input := q,
                    resolveConsumers := s.resolveConsumers.set w ResolverPc.exited,
                    history := Event.drained w :: s.history }
  | some (ResolverPc.atStore item) =>
    match storeResult s.output item.id (resolve item) with
    | none => none
    | some storage =>
      some { s with output := storage,
                    resolveConsumers := s.resolveConsumers.set w ResolverPc.atWaitPop,
                    history := Event.stored w item.id :: s.history }

/-- One step of the chosen thread; `none` when that thread cannot step in `s`. -/
def step (resolve : Triplet → String) (s : Pipeline) : Thread → Option Pipeline
  | Thread.producer => producerStep s
  | Thread.resolver w => resolverStep resolve s w

/-- Runs a schedule; `none` when it asks a thread to step that cannot. -/
def run (resolve : Triplet → String) : Pipeline → List Thread → Option Pipeline
  | s, [] => some s
  | s, th :: rest =>
    match step resolve s th with
    | none => none
    | some s1 => run resolve s1 rest

/-- Set-up shared by `main` and the resolver test: a fresh queue, a value-initialised
buffer of `n` slots, `workers` worker threads at the top of their loop, and `batch`
still to be pushed. -/
def launch (n : Nat) (batch : List Triplet) (workers : Nat) : Pipeline :=
  { input := BlockingQueue.create
    output := List.replicate n {}
    toPush := batch
    resolveConsumers := List.replicate workers ResolverPc.atWaitPop
    history := [] }

/-- Every triplet is pushed, `shutdown` was called and every worker has left its loop,
so all `join` calls return. -/
def completed (s : Pipeline) : Prop :=
  s.toPush = [] ∧ s.input.m_stopped = true ∧ ∀ pc ∈ s.resolveConsumers, pc = ResolverPc.exited

instance (s : Pipeline) : Decidable (completed s) := by
  unfold completed; infer_instance

end Pipeline

/-- Indices written so far, newest first. -/
def storedIndices : List Event → List Int
  | [] => []
  | Event.stored _ i :: rest => i :: storedIndices rest
  | _ :: rest => storedIndices rest

/-- Whether the event is a step of worker `w`. -/
def Event.byWorker (w : Nat) : Event → Bool
  | Event.popped v _ => v == w
  | Event.drained v => v == w
  | Event.stored v _ => v == w
  | _ => false

/-- Most recent step of worker `w` in a history (newest first). -/
def lastStepOf (w : Nat) (history : List Event) : Option Event :=
  history.find? (Event.byWorker w)

/-! ## app/main.cpp -/

/-- The two statements that compute `threadCount` from
`std::thread::hardware_concurrency()`, cast to `uint32_t`. -/
def threadCount (hardware_concurrency : Nat) : Nat :=
  let threadCount := hardware_concurrency % 2 ^ 32
  if threadCount = 0 then 4 else threadCount

/-- The loop `for (int i = 1; i < threadCount; ++i) resolveConsumers.emplace_back(...)`,
from its current `i` on. -/
def spawnLoop (threadCount : Nat) (i : Nat) (resolveConsumers : List ResolverPc) :
    List ResolverPc :=
  if i < threadCount then
    spawnLoop threadCount (i + 1) (resolveConsumers ++ [ResolverPc.atWaitPop])
  else
    resolveConsumers
termination_by threadCount - i

/-- The triplets as the push loop of `main` hands them to the queue, from index `i` on:
`triplet.id = i` is assigned right before the push. -/
def pushLoop (i : Nat) : List Triplet → List Triplet
  | [] => []
  | triplet :: rest => { triplet with id := (i : Int) } :: pushLoop (i + 1) rest

/-- State of `main` once the worker threads are created and before the first push. -/
def mainPipeline (hardware_concurrency : Nat) (triplets : List Triplet) : Pipeline :=
  { input := BlockingQueue.create
    output := List.replicate triplets.length {}
    toPush := pushLoop 0 triplets
    resolveConsumers := spawnLoop (threadCount hardware_concurrency) 1 []
    history := [] }

/-! ## test/unit/queue_test: one producer, several consumers -/

/-- One consumer thread of `SingleProducer_MutiConsumerThreads`, running
`while (q.waitPop(value)) ...`: its variable `value`, the values it was handed so far
(newest first) and whether `waitPop` has returned `false` to it. -/
structure Consumer (α : Type) where
  value : α
  received : List α
  finished : Bool
deriving DecidableEq, Repr

/-- Queue, values still to be pushed and the consumer threads. -/
structure Contention (α : Type) where
  q : BlockingQueue α
  toPush : List α
  consumers : List (Consumer α)
deriving DecidableEq, Repr

namespace Contention

variable {α : Type}

/-- Next step of the producer: the next `q.waitPush(i)`, then one `q.shutdown()`. -/
def producerStep (s : Contention α) : Option (Contention α) :=
  match s.toPush with
  | x :: rest => some { s with q := s.q.waitPush x, toPush := rest }
  | [] => if s.q.m_stopped then none else some { s with q := s.q.shutdown }

/-- Completion of the pending `q.waitPop(value)` of consumer `c`; `none` while it
blocks or when the consumer has left its loop. -/
def consumerStep (s : Contention α) (c : Nat) : Option (Contention α) :=
  match s.consumers[c]? with
  | none => none
  | some k =>
    if k.finished then none
    else
      match s.q.waitPop k.value with
      | none => none
      | some (true, v, q1) =>
        some { s with q := q1,
                      consumers := s.consumers.set c { k with value := v, received := v :: k.received } }
      | some (false, v, q1) =>
        some { s with q := q1,
                      consumers := s.consumers.set c { k with value := v, finished := true } }

/-- One step of the producer (`none`) or of consumer `c` (`some c`). -/
def step (s : Contention α) : Option Nat → Option (Contention α)
  | none => producerStep s
  | some c => consumerStep s c

/-- Runs a schedule; `none` when it asks a thread to step that cannot. -/
def run : Contention α → List (Option Nat) → Option (Contention α)
  | s, [] => some s
  | s, th :: rest =>
    match step s th with
    | none => none
    | some s1 => run s1 rest

/-- Start of the test: fresh queue, `consumers` threads about to call `waitPop` on
their variable (holding `v0`), `values` still to be pushed. -/
def launch (values : List α) (consumers : Nat) (v0 : α) : Contention α :=
  { q := BlockingQueue.create
    toPush := values
    consumers := List.replicate consumers { value := v0, received := [], finished := false } }

/-- Everything received, over all consumers. -/
def received (s : Contention α) : List α :=
  (s.consumers.map Consumer.received).flatten

/-- All values pushed, shutdown called, every consumer has left its loop. -/
def completed (s : Contention α) : Prop :=
  s.toPush = [] ∧ s.q.m_stopped = true ∧ ∀ k ∈ s.consumers, k.finished = true

end Contention

/-! ## Sequences of queue operations -/

/-- One call of a member function of `BlockingQueue<T>`; `pop out` is `waitPop(out)`
with the caller's variable holding `out`. -/
inductive QueueOp (α : Type) where
  | push (item : α)
  | pop (out : α)
  | shutdown
deriving DecidableEq, Repr

/-- Whether the call is a `waitPush`. -/
def QueueOp.isPush {α : Type} : QueueOp α → Bool
  | QueueOp.push _ => true
  | _ => false

/-- Queue state after the call `op` in state `q`.  A `waitPop` that blocks in `q` has
not returned and has not touched the state. -/
def BlockingQueue.applyOp {α : Type} (q : BlockingQueue α) : QueueOp α → BlockingQueue α
  | QueueOp.push item => q.waitPush item
  | QueueOp.pop out =>
    match q.waitPop out with
    | none => q
    | some (_, _, q1) => q1
  | QueueOp.shutdown => q.shutdown

/-- Queue state after a sequence of calls, first call first. -/
def BlockingQueue.applyOps {α : Type} (q : BlockingQueue α) (ops : List (QueueOp α)) :
    BlockingQueue α :=
  ops.foldl BlockingQueue.applyOp q

/-- The loop `for (k = 0; k < n; ++k) q.shutdown();`. -/
def BlockingQueue.shutdownTimes {α : Type} : Nat → BlockingQueue α → BlockingQueue α
  | 0, q => q
  | n + 1, q => shutdownTimes n q.shutdown

/-! ## lib/resolver/quadratic_resolver.h: the body of the loop, with its failure modes -/

/-- Ways one execution of the two statements after a successful `waitPop` in
`operator()` can end. -/
inductive BodyOutcome where
  /-- The assignment went to an element of the vector; the loop goes on with this
  storage. -/
  | stored (storage : List EquationSolveResult)
  /-- The expression `m_resolveStorage[index]` was evaluated with `index >= size()`:
  undefined behaviour.  The code then assigns through the reference it got; nothing is
  known about the memory that assignment modifies.  It need not lie outside the vector:
  the address `operator[]` forms may be that of one of its elements (`elementAt`,
  `subscriptOffset`), so a slot of the buffer may be overwritten. -/
  | undefinedSubscript (index : Nat)
  /-- A defined fatal stop before any store (a failed assertion, `std::abort`). -/
  | aborted
deriving DecidableEq, Repr

/-- The statements `auto result{resolve(item)}; m_resolveStorage[item.id].result =
std::move(result);`.  The `int64_t` id is converted to `size_t` (modulo `2^64`) and
`operator[]` uses it without comparing it with `size()`; the body holds no assertion
and no call of `abort`.  With the subscript below `size()` the element is assigned; with
any other subscript the behaviour is undefined, and the outcome records the subscript
only. -/
def loopBody (resolve : Triplet → String) (m_resolveStorage : List EquationSolveResult)
    (item : Triplet) : BodyOutcome :=
  let result := resolve item
  let index := (item.id % 2 ^ 64).toNat
  if index < m_resolveStorage.length then
    BodyOutcome.stored (m_resolveStorage.set index { result := result })
  else
    BodyOutcome.undefinedSubscript index

/-- The address arithmetic of the standard library's `std::vector::operator[]`, which
returns `*(data() + n)` unchecked, on a flat 64-bit address space: the distance in bytes
from `data()` to the object designated by the subscript `n` is `n * sizeof(value_type)`
modulo `2^64`.  `elemSize` is `sizeof(EquationSolveResult)`, which the sources do not
fix. -/
def subscriptOffset (elemSize n : Nat) : Nat :=
  (n * elemSize) % 2 ^ 64

/-- The element of a vector of `size` elements of `elemSize` bytes each that begins
`offset` bytes after `data()`, if there is one. -/
def elementAt (elemSize size offset : Nat) : Option Nat :=
  if 0 < elemSize ∧ offset % elemSize = 0 ∧ offset / elemSize < size then
    some (offset / elemSize)
  else
    none

/-! ## lib/cli/cli_parser.cpp -/

/-- Struct `CliArgs`. -/
structure CliArgs where
  triplets : List Triplet := []
deriving DecidableEq, Repr

/-- The values of `std::errc` that `std::from_chars` reports; `ok` is `std::errc{}`. -/
inductive Errc where
  | ok
  | invalid_argument
  | result_out_of_range
deriving DecidableEq, Repr

/-- A `std::from_chars_result` together with what the call did to `out`: `ptr` counts
the characters between `first` and the returned pointer, `value` is the value stored
into `out` (`none`: `out` is left as it was). -/
structure FromCharsResult where
  ptr : Nat
  ec : Errc
  value : Option Int
deriving DecidableEq, Repr

/-- Value of a run of decimal digits, most significant first. -/
def digitsValue (digits : List Char) : Nat :=
  digits.foldl (fun v c => 10 * v + (c.toNat - 48)) 0

/-- The library call `std::from_chars(first, last, out)` for `int64_t out` and base
10, as the C++ standard specifies it: the longest leading match of an optional `-`
followed by decimal digits is consumed; no leading whitespace, no `+`.  No match gives
`invalid_argument` with `ptr == first`; a match whose value is not an `int64_t` gives
`result_out_of_range` with `ptr` after the match; `out` is written only on success. -/
def from_chars (chars : List Char) : FromCharsResult :=
  let negative : Bool := chars.head? = some '-'
  let body := if negative then chars.tail else chars
  let digits := body.takeWhile Char.isDigit
  if digits = [] then
    { ptr := 0, ec := Errc.invalid_argument, value := none }
  else
    let magnitude : Int := digitsValue digits
    let value : Int := if negative then -magnitude else magnitude
    let ptr := (if negative then 1 else 0) + digits.length
    if -2 ^ 63 ≤ value ∧ value < 2 ^ 63 then
      { ptr := ptr, ec := Errc.ok, value := some value }
    else
      { ptr := ptr, ec := Errc.result_out_of_range, value := none }

/-- The lambda `stoi` of `_parseTriplet`: `none` for the returned `false`, `some v` for
`true` with `v` stored into `out`.  The argument is `none` for a null pointer (which
is what `argv[argc]` is) and otherwise the characters up to the terminating NUL. -/
def stoi (str : Option String) : Option Int :=
  match str with
  | none => none
  | some s =>
    if s.length = 0 then none
    else
      let result := from_chars s.toList
      if result.ec = Errc.ok ∧ result.ptr = s.length then result.value else none

/-- Member `CliParser::_parseTriplet(argv, start)`: the three conversions are all
made, and the triplet (with the default id) is returned when all three succeed. -/
def _parseTriplet (argv : List String) (start : Nat) : Option Triplet :=
  match stoi argv[start]?, stoi argv[start + 1]?, stoi argv[start + 2]? with
  | some a, some b, some c => some { a := a, b := b, c := c }
  | _, _, _ => none

/-- The loop `for (int i = 1; i < argc; i += 3)` of `CliParser::parse`, from its current
`i` and `triplets` on.  The first argument bounds the number of iterations still to
run; `argc` of them are always enough, since `i` grows by 3.  The calls of
`_processInvalidTriplet` only print and are left out. -/
def parseLoop (argv : List String) : Nat → Nat → List Triplet → List Triplet
  | 0, _, triplets => triplets
  | fuel + 1, i, triplets =>
    if i < argv.length then
      if i + 2 ≥ argv.length then
        triplets
      else
        match _parseTriplet argv i with
        | some triplet => parseLoop argv fuel (i + 3) (triplets ++ [triplet])
        | none => parseLoop argv fuel (i + 3) triplets
    else
      triplets

/-- Member `CliParser::parse(argc, argv)` with `argc = argv.length`; `Except.error` carries
the message of the `std::invalid_argument` thrown. -/
def parse (argv : List String) : Except String CliArgs :=
  let argc : Int := argv.length
  let argsLen := argc - 1
  if argsLen = 0 then
    Except.error "Invalid input: missing command line arguments"
  else
    let triplets := parseLoop argv argv.length 1 []
    if triplets.isEmpty then
      Except.error "Invalid input: no valid parameters"
    else
      Except.ok { triplets := triplets }

/-- What the parser is to return, in the words of its documentation: the triplets of
the aligned groups `(argv[3k+1], argv[3k+2], argv[3k+3])`, in increasing `k`, that are
complete (`3k+3 < argc`) and whose three tokens all convert. -/
def alignedValidTriplets (argv : List String) : List Triplet :=
  (List.range argv.length).filterMap
    (fun k => if 3 * k + 3 < argv.length then _parseTriplet argv (3 * k + 1) else none)

/-- The integer is a value of `int64_t`. -/
def isInt64 (n : Int) : Prop := -2 ^ 63 ≤ n ∧ n < 2 ^ 63

instance (n : Int) : Decidable (isInt64 n) := by
  unfold isInt64; infer_instance

/-- The three tokens that spell the coefficients of a triplet on the command line. -/
def Triplet.tokens (t : Triplet) : List String :=
  [toString t.a, toString t.b, toString t.c]

/-- The argument vector that spells `triplets` out: the program name, then the decimal
renderings of `a`, `b`, `c` of each triplet in order. -/
def renderArgv (program : String) (triplets : List Triplet) : List String :=
  program :: triplets.flatMap Triplet.tokens

/-! ## Arithmetic of `double`

The values `resolve` computes are finite: its inputs are `int64_t` values, and products,
differences, quotients and square roots of those stay far inside the exponent range of
a `double`.  A finite `double` is a sign bit and a magnitude `mantissa * 2^exponent`;
every arithmetic operation is the exact result rounded to 53 significant bits, ties to
even, each operation rounded on its own.  An operation whose IEEE result is not finite
(a zero divisor, the square root of a negative number) has the result `none`. -/

/-- Number of binary digits of `n`, from the low end; the first argument bounds the
number of halvings and `n` itself is always enough. -/
def bitLengthAux : Nat → Nat → Nat
  | 0, _ => 0
  | fuel + 1, n => if n = 0 then 0 else bitLengthAux fuel (n / 2) + 1

/-- Number of binary digits of `n` (0 for 0). -/
def bitLength (n : Nat) : Nat := bitLengthAux n n

/-- Rounding of the magnitude `mantissa * 2^exponent` to 53 significant bits, to
nearest, ties to even.  The result is again a pair of mantissa and exponent, with a
mantissa of at most `2^53`. -/
def roundNearestEven (mantissa : Nat) (exponent : Int) : Nat × Int :=
  if mantissa < 2 ^ 53 then
    (mantissa, exponent)
  else
    let shift := bitLength mantissa - 53
    let q := mantissa / 2 ^ shift
    let r := mantissa % 2 ^ shift
    let half := 2 ^ (shift - 1)
    let q1 := if r > half ∨ (r = half ∧ q % 2 = 1) then q + 1 else q
    (q1, exponent + shift)

/-- A finite `double`: the sign bit and the magnitude `mantissa * 2^exponent`.  Zero
has mantissa 0 and keeps its sign bit. -/
structure Double where
  negative : Bool
  mantissa : Nat
  exponent : Int
deriving DecidableEq, Repr

namespace Double

/-- The literal `0.0`. -/
def zero : Double := ⟨false, 0, 0⟩

/-- Conversion of an integer to `double`: `static_cast<double>(t.a)` and the conversion
of the `int` literals in `4 * a * c` and `2 * a`. -/
def ofInt (n : Int) : Double :=
  let r := roundNearestEven n.natAbs 0
  ⟨decide (n < 0), r.1, r.2⟩

/-- Unary minus: the sign bit is flipped, also on zero. -/
def neg (x : Double) : Double := { x with negative := !x.negative }

/-- Product `x * y`. -/
def mul (x y : Double) : Double :=
  let r := roundNearestEven (x.mantissa * y.mantissa) (x.exponent + y.exponent)
  ⟨xor x.negative y.negative, r.1, r.2⟩

/-- The signed value of `x` in units of `2^e`, for `e` at most the exponent of `x`. -/
def scaled (x : Double) (e : Int) : Int :=
  let v : Int := x.mantissa * 2 ^ (x.exponent - e).toNat
  if x.negative then -v else v

/-- Sum `x + y`.  An exact zero sum is `+0`, except that `-0 + -0` is `-0`. -/
def add (x y : Double) : Double :=
  let e := min x.exponent y.exponent
  let sum := x.scaled e + y.scaled e
  if sum = 0 then
    ⟨x.negative && y.negative, 0, 0⟩
  else
    let r := roundNearestEven sum.natAbs e
    ⟨decide (sum < 0), r.1, r.2⟩

/-- Difference `x - y`, which is `x + (-y)`. -/
def sub (x y : Double) : Double := x.add y.neg

/-- The comparison `x == 0.0`; both zeros compare equal to it. -/
def eqZero (x : Double) : Bool := x.mantissa = 0

/-- The comparison `x < 0.0`. -/
def ltZero (x : Double) : Bool := x.negative && x.mantissa ≠ 0

/-- Quotient `x / y`; `none` for a zero divisor.  The quotient of the mantissas is
taken with more than 64 extra bits and a sticky bit for the remainder, then rounded. -/
def div (x y : Double) : Option Double :=
  if y.mantissa = 0 then none
  else if x.mantissa = 0 then some ⟨xor x.negative y.negative, 0, 0⟩
  else
    let k := 64 + bitLength y.mantissa
    let num := x.mantissa * 2 ^ k
    let q := num / y.mantissa
    let sticky := if num % y.mantissa = 0 then 0 else 1
    let r := roundNearestEven (2 * q + sticky) (x.exponent - y.exponent - k - 1)
    some ⟨xor x.negative y.negative, r.1, r.2⟩

/-- Bit-by-bit integer square root: tries the bits below `2^k`, high to low. -/
def isqrtBits (m : Nat) : Nat → Nat → Nat
  | 0, acc => acc
  | k + 1, acc =>
    let candidate := acc + 2 ^ k
    if candidate * candidate ≤ m then isqrtBits m k candidate else isqrtBits m k acc

/-- Integer square root, rounded down. -/
def isqrt (m : Nat) : Nat := isqrtBits m (bitLength m / 2 + 1) 0

/-- The library call `std::sqrt(x)`; `none` for a negative argument, and the square
root of a zero is that zero.  The magnitude is scaled to an even exponent with at least
128 extra bits, its integer square root taken with a sticky bit, then rounded. -/
def sqrt (x : Double) : Option Double :=
  if x.mantissa = 0 then some x
  else if x.negative then none
  else
    let t := x.exponent - 128
    let e := t - t % 2
    let m := x.mantissa * 2 ^ (x.exponent - e).toNat
    let s := isqrt m
    let sticky := if s * s = m then 0 else 1
    let r := roundNearestEven (2 * s + sticky) (e / 2 - 1)
    some ⟨false, r.1, r.2⟩

/-- Removes the zeros at the end of a run of digits. -/
def stripZeros (digits : List Char) : List Char :=
  (digits.reverse.dropWhile (· = '0')).reverse

/-- The fraction `num / den` rounded to an integer, to nearest, ties to even. -/
def roundHalfEven (num den : Nat) : Nat :=
  let q := num / den
  let r := num % den
  if 2 * r > den ∨ (2 * r = den ∧ q % 2 = 1) then q + 1 else q

/-- The text `stream << x` appends, for a stream in its default state: the `%g`
conversion with precision 6.  The value is rounded to 6 significant decimal digits,
exponent `X`; for `-4 ≤ X < 6` it is written in fixed notation, else in scientific
notation with an exponent of at least two digits; zeros at the end of the fraction, and
a decimal point with nothing after it, are dropped.  A set sign bit gives a leading
`-`, also on zero. -/
def render (x : Double) : String :=
  let sign := if x.negative then "-" else ""
  if x.mantissa = 0 then sign ++ "0"
  else
    let n := x.mantissa * 2 ^ x.exponent.toNat
    let d := 2 ^ (-x.exponent).toNat
    let x0 : Int :=
      if d ≤ n then ((Nat.toDigits 10 (n / d)).length : Int) - 1
      else -((Nat.toDigits 10 ((d + n - 1) / n - 1)).length : Int)
    let s := 5 - x0
    let dg0 := roundHalfEven (n * 10 ^ s.toNat) (d * 10 ^ (-s).toNat)
    let carry := decide (dg0 = 10 ^ 6)
    let dg := if carry then 10 ^ 5 else dg0
    let X := if carry then x0 + 1 else x0
    let digits := Nat.toDigits 10 dg
    if X < -4 ∨ X ≥ 6 then
      let frac := stripZeros (digits.drop 1)
      let expDigits := Nat.toDigits 10 X.natAbs
      sign ++ String.mk (digits.take 1 ++ (if frac = [] then [] else '.' :: frac)
        ++ ['e', if X < 0 then '-' else '+']
        ++ (if expDigits.length < 2 then '0' :: expDigits else expDigits))
    else if X ≥ 0 then
      let frac := stripZeros (digits.drop (X.toNat + 1))
      sign ++ String.mk (digits.take (X.toNat + 1) ++ (if frac = [] then [] else '.' :: frac))
    else
      sign ++ String.mk ('0' :: '.' :: List.replicate ((-X).toNat - 1) '0' ++ stripZeros digits)

end Double

/-! ## lib/resolver/quadratic_resolver.h: `resolve` -/

/-- The text `resolve` writes first: `"(" << t.a << ", " << t.b << ", " << t.c << ") => "`. -/
def resolveHeader (t : Triplet) : String :=
  "(" ++ toString t.a ++ ", " ++ toString t.b ++ ", " ++ toString t.c ++ ") => "

/-- The local `const double D{b * b - 4 * a * c}` of `resolve`. -/
def discriminant (t : Triplet) : Double :=
  let a := Double.ofInt t.a
  let b := Double.ofInt t.b
  let c := Double.ofInt t.c
  (b.mul b).sub (((Double.ofInt 4).mul a).mul c)

/-- The expression `-b / (2 * a)` of `resolve`, which gives the single root and
`xMin`. -/
def vertex (t : Triplet) : Option Double :=
  (Double.ofInt t.b).neg.div ((Double.ofInt 2).mul (Double.ofInt t.a))

/-- Member `QuadraticEquationResolver::resolve(t)`.  The result is `none` when one of
its divisions has a zero divisor or its square root a negative argument, and the
returned string otherwise. -/
def resolve (t : Triplet) : Option String :=
  let stream := resolveHeader t
  let a := Double.ofInt t.a
  let b := Double.ofInt t.b
  let c := Double.ofInt t.c
  if a.eqZero then
    if !b.eqZero then
      match c.neg.div b with
      | none => none
      | some x => some (stream ++ "(" ++ x.render ++ "), no extremum")
    else if c.eqZero then
      some (stream ++ "infinite roots, no extremum")
    else
      some (stream ++ "no solution, no extremum")
  else
    let D := discriminant t
    let roots : Option String :=
      if D.ltZero then
        some "no real roots"
      else if D.eqZero then
        match vertex t with
        | none => none
        | some x => some ("(" ++ x.render ++ ")")
      else
        match D.sqrt with
        | none => none
        | some sqrtD =>
          match (b.neg.add sqrtD).div ((Double.ofInt 2).mul a),
                (b.neg.sub sqrtD).div ((Double.ofInt 2).mul a) with
          | some x1, some x2 => some ("(" ++ x1.render ++ ", " ++ x2.render ++ ")")
          | _, _ => none
    match roots, vertex t with
    | some text, some xMin =>
      some (stream ++ text ++ ", Xmin=" ++ (if xMin.eqZero then Double.zero else xMin).render)
    | _, _ => none

/-- The `double` `x` holds the integer `n` exactly, with exponent 0; the sign bit of a
zero is not constrained. -/
def Double.IsExactly (x : Double) (n : Int) : Prop :=
  x.exponent = 0 ∧ x.mantissa = n.natAbs ∧ (n ≠ 0 → x.negative = decide (n < 0))

/-! ## The token grammar, in the words of the parser's contract -/

/-- The whole token is an optional leading `-` followed by one or more decimal digits,
and the value `v` so written fits in a signed 64-bit integer. -/
def IsCoefficientToken (token : String) (v : Int) : Prop :=
  ∃ digits : List Char, digits ≠ [] ∧ (∀ c ∈ digits, c.isDigit = true)
    ∧ ((token.toList = digits ∧ v = (digitsValue digits : Int))
        ∨ (token.toList = '-' :: digits ∧ v = -(digitsValue digits : Int)))
    ∧ isInt64 v

/-! ## Jobs pushed and stores made by a run -/

/-- Jobs pushed so far according to a history, newest first. -/
def pushedItems : List Event → List Triplet
  | [] => []
  | Event.pushed item :: rest => item :: pushedItems rest
  | _ :: rest => pushedItems rest

/-- The buffer after the worker body has run for each of `jobs` in order: every job's
result is stored at the job's id. -/
def storeAll (resolve : Triplet → String) (jobs : List Triplet)
    (output : List EquationSolveResult) : List EquationSolveResult :=
  jobs.foldl (fun storage job => storage.set job.id.toNat { result := resolve job }) output

/-! ## Bookkeeping used by the proofs -/

/-- Items the workers have dequeued and not stored yet. -/
def heldItems : List ResolverPc → List Triplet
  | [] => []
  | ResolverPc.atStore item :: rest => item :: heldItems rest
  | _ :: rest => heldItems rest

/-- Every store in the history (newest first) is the step of its worker that directly
follows that worker's dequeue of a job whose id is the stored index. -/
def WriteOwned (history : List Event) : Prop :=
  ∀ (newer older : List Event) (w : Nat) (i : Int),
    history = newer ++ Event.stored w i :: older →
      ∃ item : Triplet, lastStepOf w older = some (Event.popped w item) ∧ item.id = i

/-- Invariant of every run from `Pipeline.launch n batch workers`. -/
structure Pipeline.Inv (resolve : Triplet → String) (n : Nat) (batch : List Triplet)
    (workers : Nat) (s : Pipeline) : Prop where
  len : s.output.length = n
  pool : s.resolveConsumers.length = workers
  stop : s.input.m_stopped = true → s.toPush = []
  exit : ResolverPc.exited ∈ s.resolveConsumers →
    s.input.m_stopped = true ∧ s.input.m_queue = []
  acct : ∃ done : List Triplet,
    List.Perm batch (done ++ (heldItems s.resolveConsumers ++ (s.input.m_queue ++ s.toPush)))
    ∧ storedIndices s.history = done.map Triplet.id
    ∧ ∀ t ∈ done, 0 ≤ t.id ∧ s.output[t.id.toNat]? = some { result := resolve t }
  owner : ∀ (w : Nat) (item : Triplet), s.resolveConsumers[w]? = some (ResolverPc.atStore item) →
    lastStepOf w s.history = some (Event.popped w item)
  trace : WriteOwned s.history

/-! ## A concrete run: two jobs, two workers -/

/-- A stand-in compute function for concrete runs. -/
def sampleResolve (t : Triplet) : String := toString t.b

/-- Two jobs whose ids are the reverse of their push order. -/
def sampleBatch : List Triplet :=
  [{ a := 1, b := -3, c := 2, id := 1 }, { a := 1, b := 2, c := 1, id := 0 }]

/-- An interleaving in which worker 1 takes the first job and worker 0 the second, and
worker 0 stores first. -/
def sampleSchedule : List Thread :=
  [Thread.producer, Thread.resolver 1, Thread.producer, Thread.resolver 0, Thread.producer,
   Thread.resolver 0, Thread.resolver 1, Thread.resolver 0, Thread.resolver 1]

/-- The state `sampleSchedule` ends in. -/
def sampleFinal : Pipeline :=
  { input := { m_queue := [], m_stopped := true }
    output := [{ result := "2" }, { result := "-3" }]
    toPush := []
    resolveConsumers := [ResolverPc.exited, ResolverPc.exited]
    history :=
      [Event.drained 1, Event.drained 0, Event.stored 1 1, Event.stored 0 0, Event.shutdown,
       Event.popped 0 { a := 1, b := 2, c := 1, id := 0 },
       Event.pushed { a := 1, b := 2, c := 1, id := 0 },
       Event.popped 1 { a := 1, b := -3, c := 2, id := 1 },
       Event.pushed { a := 1, b := -3, c := 2, id := 1 }] }

/-- Invariant of every run from `Contention.launch values consumers v0`. -/
structure Contention.Inv {α : Type} (values : List α) (consumers : Nat) (s : Contention α) :
    Prop where
  pool : s.consumers.length = consumers
  stop : s.q.m_stopped = true → s.toPush = []
  exit : ∀ k ∈ s.consumers, k.finished = true → s.q.m_stopped = true ∧ s.q.m_queue = []
  acct : List.Perm values (s.received ++ (s.q.m_queue ++ s.toPush))

/-- A run of `SingleProducer_MutiConsumerThreads` with three values and two consumers. -/
def sampleContest : List (Option Nat) :=
  [none, some 1, none, none, some 0, none, some 0, some 1, some 0]

/-- The state `sampleContest` ends in. -/
def sampleContestFinal : Contention Int :=
  { q := { m_queue := [], m_stopped := true }
    toPush := []
    consumers := [{ value := 30, received := [30, 20], finished := true },
                  { value := 10, received := [10], finished := true }] }

/-! ## Queue lemmas -/

namespace BlockingQueue

variable {α : Type}

theorem waitPop_cons (front : α) (rest : List α) (stopped : Bool) (out : α) :
    waitPop ⟨front :: rest, stopped⟩ out = some (true, front, ⟨rest, stopped⟩) := by
  cases stopped <;> simp [waitPop, waitPredicate]

theorem waitPop_nil_stopped (out : α) :
    waitPop (⟨[], true⟩ : BlockingQueue α) out = some (false, out, ⟨[], true⟩) := by
  simp [waitPop, waitPredicate]

theorem waitPop_nil_running (out : α) :
    waitPop (⟨[], false⟩ : BlockingQueue α) out = none := by
  simp [waitPop, waitPredicate]

theorem pushAll_eq (q : BlockingQueue α) (xs : List α) :
    pushAll q xs = ⟨q.m_queue ++ xs, q.m_stopped⟩ := by
  induction xs generalizing q with
  | nil => simp [pushAll]
  | cons x xs ih =>
    have h := ih (waitPush q x)
    simp only [pushAll, List.foldl_cons] at h ⊢
    rw [h]
    simp [waitPush]

theorem popMany_items (xs rest : List α) (stopped : Bool) (out : α) :
    popMany xs.length ⟨xs ++ rest, stopped⟩ out
      = some (xs.map (fun x => (true, x)), ⟨rest, stopped⟩) := by
  induction xs generalizing out with
  | nil => simp [popMany]
  | cons x xs ih =>
    simp only [List.length_cons, popMany, List.cons_append, waitPop_cons, ih, List.map_cons]

theorem popMany_closed (n : Nat) (out : α) :
    popMany n (⟨[], true⟩ : BlockingQueue α) out
      = some (List.replicate n (false, out), ⟨[], true⟩) := by
  induction n with
  | zero => simp [popMany]
  | succ n ih => simp only [popMany, waitPop_nil_stopped, ih, List.replicate_succ]

theorem popMany_add (m n : Nat) (q : BlockingQueue α) (out : α) :
    popMany (m + n) q out =
      match popMany m q out with
      | none => none
      | some (rs, q1) =>
        match popMany n q1 ((rs.getLast?.map Prod.snd).getD out) with
        | none => none
        | some (rs2, q2) => some (rs ++ rs2, q2) := by
  induction m generalizing q out with
  | zero =>
    simp only [Nat.zero_add, popMany, List.getLast?_nil, Option.map_none', Option.getD_none,
      List.nil_append]
    cases popMany n q out with
    | none => rfl
    | some p => rfl
  | succ m ih =>
    rw [Nat.add_right_comm]
    simp only [popMany]
    cases hq : waitPop q out with
    | none => rfl
    | some p =>
      obtain ⟨r, out1, q1⟩ := p
      simp only [ih]
      cases hm : popMany m q1 out1 with
      | none => rfl
      | some p2 =>
        obtain ⟨rs, q2⟩ := p2
        simp only
        have hlast : (((r, out1) :: rs).getLast?.map Prod.snd).getD out
            = (rs.getLast?.map Prod.snd).getD out1 := by
          cases rs with
          | nil => simp
          | cons a l =>
            rw [List.getLast?_cons_cons, List.getLast?_eq_getLast _ (List.cons_ne_nil a l)]
            rfl
        rw [hlast]
        cases popMany n q2 ((rs.getLast?.map Prod.snd).getD out1) with
        | none => rfl
        | some p3 => rfl

end BlockingQueue

/-! ## Claims about the queue alone -/

section QueueClaims

open BlockingQueue

variable {α : Type}

/-- C2, drain guarantee: after pushing the items `xs` in order onto a fresh queue and one
`shutdown`, the next `xs.length` calls of `waitPop` return `true` and hand over exactly
`xs` in push order, the call after them returns `false` (leaving the caller's variable
as it was), and the queue is then empty and stopped. -/
theorem drain_guarantee (xs : List α) (out : α) :
    popMany (xs.length + 1) (shutdown (pushAll create xs)) out
      = some (xs.map (fun x => (true, x)) ++ [(false, xs.getLast?.getD out)], ⟨[], true⟩) := by
  have hq : shutdown (pushAll create xs) = (⟨xs ++ [], true⟩ : BlockingQueue α) := by
    simp [pushAll_eq, shutdown, create]
  rw [hq, popMany_add, popMany_items]
  have hlast : (((xs.map (fun x => (true, x))).getLast?.map Prod.snd).getD out)
      = xs.getLast?.getD out := by
    rw [List.getLast?_map]
    cases xs.getLast? <;> rfl
  simp only [hlast, popMany, waitPop_nil_stopped]

/-- C3: `waitPop` returns `false` exactly in the states that are stopped and empty, and
in every state with a non-empty item sequence it returns `true` with the head item and
removes it, whatever the shutdown flag is. -/
theorem waitPop_false_only_when_stopped_and_empty :
    (∀ (q : BlockingQueue α) (out : α),
        (∃ o q1, waitPop q out = some (false, o, q1)) ↔ (q.m_stopped = true ∧ q.m_queue = []))
    ∧ (∀ (front : α) (rest : List α) (stopped : Bool) (out : α),
        waitPop ⟨front :: rest, stopped⟩ out = some (true, front, ⟨rest, stopped⟩)) := by
  refine ⟨?_, waitPop_cons⟩
  intro q out
  obtain ⟨items, stopped⟩ := q
  cases items with
  | nil =>
    cases stopped
    · simp [waitPop_nil_running]
    · simp [waitPop_nil_stopped]
  | cons front rest => simp [waitPop_cons]

/-- C8, FIFO step semantics: `waitPush` is total and appends the item at the tail,
leaving the flag alone; `waitPop` on a non-empty sequence hands over the head and leaves
the tail; so after pushing `xs` onto a fresh queue, `xs.length` calls of `waitPop`
return exactly `xs` in order and leave the queue as it was created. -/
theorem fifo_step_semantics :
    (∀ (q : BlockingQueue α) (x : α), waitPush q x = ⟨q.m_queue ++ [x], q.m_stopped⟩)
    ∧ (∀ (front : α) (rest : List α) (stopped : Bool) (out : α),
        waitPop ⟨front :: rest, stopped⟩ out = some (true, front, ⟨rest, stopped⟩))
    ∧ (∀ (xs : List α) (out : α),
        popMany xs.length (pushAll create xs) out
          = some (xs.map (fun x => (true, x)), create)) := by
  refine ⟨fun q x => rfl, waitPop_cons, ?_⟩
  intro xs out
  have hq : pushAll create xs = (⟨xs ++ [], false⟩ : BlockingQueue α) := by
    simp [pushAll_eq, create]
  rw [hq, popMany_items]
  rfl

/-- C9, blocking correctness: in the state with an empty item sequence and the flag not
set a `waitPop` call has no result (it neither returns `true` nor `false`), and a call
has a result exactly in the states that are non-empty or stopped. -/
theorem waitPop_blocks_while_empty_and_running :
    (∀ out : α, waitPop (⟨[], false⟩ : BlockingQueue α) out = none)
    ∧ (∀ (q : BlockingQueue α) (out : α),
        (waitPop q out).isSome = true ↔ (q.m_queue ≠ [] ∨ q.m_stopped = true)) := by
  refine ⟨waitPop_nil_running, ?_⟩
  intro q out
  obtain ⟨items, stopped⟩ := q
  cases items with
  | nil =>
    cases stopped
    · simp [waitPop_nil_running]
    · simp [waitPop_nil_stopped]
  | cons front rest => simp [waitPop_cons]

/-- C10, shutdown-then-empty immediacy: in the stopped and empty state `waitPop` returns
`false` at once, changes neither the queue nor the caller's variable, and so does every
one of any number of further calls. -/
theorem stopped_and_empty_returns_false_forever (out : α) :
    waitPop (⟨[], true⟩ : BlockingQueue α) out = some (false, out, ⟨[], true⟩)
    ∧ ∀ n : Nat, popMany n (⟨[], true⟩ : BlockingQueue α) out
        = some (List.replicate n (false, out), ⟨[], true⟩) :=
  ⟨waitPop_nil_stopped out, fun n => popMany_closed n out⟩

end QueueClaims

/-! ## Lemmas about the worker pool -/

theorem waitPop_true_inv {α : Type} {q q1 : BlockingQueue α} {out item : α}
    (h : q.waitPop out = some (true, item, q1)) :
    q.m_queue = item :: q1.m_queue ∧ q1.m_stopped = q.m_stopped := by
  obtain ⟨items, stopped⟩ := q
  cases items with
  | nil => cases stopped <;> simp [BlockingQueue.waitPop, BlockingQueue.waitPredicate] at h
  | cons front rest =>
    rw [BlockingQueue.waitPop_cons] at h
    simp only [Option.some.injEq, Prod.mk.injEq, true_and] at h
    obtain ⟨h1, h2⟩ := h
    subst h1 h2
    exact ⟨rfl, rfl⟩

theorem waitPop_false_inv {α : Type} {q q1 : BlockingQueue α} {out o : α}
    (h : q.waitPop out = some (false, o, q1)) :
    q.m_stopped = true ∧ q.m_queue = [] ∧ q1 = q := by
  obtain ⟨items, stopped⟩ := q
  cases items with
  | nil =>
    cases stopped
    · simp [BlockingQueue.waitPop_nil_running] at h
    · rw [BlockingQueue.waitPop_nil_stopped] at h
      simp only [Option.some.injEq, Prod.mk.injEq, true_and] at h
      exact ⟨rfl, rfl, h.2.symm⟩
  | cons front rest => simp [BlockingQueue.waitPop_cons] at h

theorem heldItems_set_atStore {l : List ResolverPc} {w : Nat} (t : Triplet)
    (h : l[w]? = some ResolverPc.atWaitPop) :
    (heldItems (l.set w (ResolverPc.atStore t))).Perm (t :: heldItems l) := by
  induction l generalizing w with
  | nil => simp at h
  | cons pc rest ih =>
    cases w with
    | zero =>
      simp only [List.getElem?_cons_zero, Option.some.injEq] at h
      subst h
      simp [heldItems]
    | succ w =>
      simp only [List.getElem?_cons_succ] at h
      have ih1 := ih h
      cases pc with
      | atWaitPop => simpa [heldItems] using ih1
      | exited => simpa [heldItems] using ih1
      | atStore item =>
        simp only [List.set_cons_succ, heldItems]
        exact (List.Perm.cons item ih1).trans (List.Perm.swap t item _)

theorem heldItems_set_atWaitPop {l : List ResolverPc} {w : Nat} {t : Triplet}
    (h : l[w]? = some (ResolverPc.atStore t)) :
    (heldItems l).Perm (t :: heldItems (l.set w ResolverPc.atWaitPop)) := by
  induction l generalizing w with
  | nil => simp at h
  | cons pc rest ih =>
    cases w with
    | zero =>
      simp only [List.getElem?_cons_zero, Option.some.injEq] at h
      subst h
      simp [heldItems]
    | succ w =>
      simp only [List.getElem?_cons_succ] at h
      have ih1 := ih h
      cases pc with
      | atWaitPop => simpa [heldItems] using ih1
      | exited => simpa [heldItems] using ih1
      | atStore item =>
        simp only [List.set_cons_succ, heldItems]
        exact (List.Perm.cons item ih1).trans (List.Perm.swap t item _)

theorem heldItems_set_exited {l : List ResolverPc} {w : Nat}
    (h : l[w]? = some ResolverPc.atWaitPop) :
    heldItems (l.set w ResolverPc.exited) = heldItems l := by
  induction l generalizing w with
  | nil => simp at h
  | cons pc rest ih =>
    cases w with
    | zero =>
      simp only [List.getElem?_cons_zero, Option.some.injEq] at h
      subst h
      simp [heldItems]
    | succ w =>
      simp only [List.getElem?_cons_succ] at h
      have ih1 := ih h
      cases pc <;> simp [heldItems, ih1]

theorem heldItems_of_all_exited {l : List ResolverPc}
    (h : ∀ pc ∈ l, pc = ResolverPc.exited) : heldItems l = [] := by
  induction l with
  | nil => rfl
  | cons pc rest ih =>
    have hpc := h pc (List.mem_cons_self _ _)
    subst hpc
    simp only [heldItems]
    exact ih (fun pc hmem => h pc (List.mem_cons_of_mem _ hmem))

theorem heldItems_replicate (workers : Nat) :
    heldItems (List.replicate workers ResolverPc.atWaitPop) = [] := by
  induction workers with
  | zero => rfl
  | succ k ih => simpa [List.replicate_succ, heldItems] using ih

theorem mem_heldItems {l : List ResolverPc} {t : Triplet}
    (h : ResolverPc.atStore t ∈ l) : t ∈ heldItems l := by
  induction l with
  | nil => simp at h
  | cons pc rest ih =>
    rcases List.mem_cons.mp h with h1 | h1
    · subst h1
      simp [heldItems]
    · cases pc <;> simp [heldItems, ih h1]

/-! ## Lemmas about histories -/

theorem lastStepOf_cons_other {w : Nat} {e : Event} (history : List Event)
    (he : e.byWorker w = false) : lastStepOf w (e :: history) = lastStepOf w history := by
  simp [lastStepOf, List.find?_cons, he]

theorem lastStepOf_cons_self {w : Nat} {e : Event} (history : List Event)
    (he : e.byWorker w = true) : lastStepOf w (e :: history) = some e := by
  simp [lastStepOf, List.find?_cons, he]

theorem writeOwned_nil : WriteOwned [] := by
  intro newer older w i h
  simp at h

theorem writeOwned_cons_other {e : Event} {history : List Event} (hw : WriteOwned history)
    (he : ∀ w i, e ≠ Event.stored w i) : WriteOwned (e :: history) := by
  intro newer older w i h
  cases newer with
  | nil =>
    simp only [List.nil_append, List.cons.injEq] at h
    exact absurd h.1 (he w i)
  | cons a newer1 =>
    simp only [List.cons_append, List.cons.injEq] at h
    exact hw newer1 older w i h.2

theorem writeOwned_cons_stored {history : List Event} (hw : WriteOwned history) (w : Nat)
    (item : Triplet) (hl : lastStepOf w history = some (Event.popped w item)) :
    WriteOwned (Event.stored w item.id :: history) := by
  intro newer older v i h
  cases newer with
  | nil =>
    simp only [List.nil_append, List.cons.injEq, Event.stored.injEq] at h
    obtain ⟨⟨hv, hi⟩, ho⟩ := h
    subst hv ho
    exact ⟨item, hl, hi⟩
  | cons a newer1 =>
    simp only [List.cons_append, List.cons.injEq] at h
    exact hw newer1 older v i h.2

/-! ## The invariant holds along every run -/

theorem inv_launch (resolve : Triplet → String) (n : Nat) (batch : List Triplet)
    (workers : Nat) : Pipeline.Inv resolve n batch workers (Pipeline.launch n batch workers) where
  len := by simp [Pipeline.launch]
  pool := by simp [Pipeline.launch]
  stop := by simp [Pipeline.launch, BlockingQueue.create]
  exit := by
    intro h
    simp only [Pipeline.launch] at h
    have := (List.mem_replicate.mp h).2
    cases this
  acct := by
    refine ⟨[], ?_, rfl, ?_⟩
    · simp [Pipeline.launch, heldItems_replicate, BlockingQueue.create]
    · intro t ht
      cases ht
  owner := by
    intro w item h
    have hmem := List.getElem?_mem h
    simp only [Pipeline.launch] at hmem
    have := (List.mem_replicate.mp hmem).2
    cases this
  trace := writeOwned_nil

theorem inv_producerStep {resolve : Triplet → String} {n : Nat} {batch : List Triplet}
    {workers : Nat} {s s1 : Pipeline} (inv : Pipeline.Inv resolve n batch workers s)
    (h : s.producerStep = some s1) : Pipeline.Inv resolve n batch workers s1 := by
  unfold Pipeline.producerStep at h
  cases hp : s.toPush with
  | nil =>
    rw [hp] at h
    cases hst : s.input.m_stopped with
    | true => simp [hst] at h
    | false =>
      simp only [hst, Bool.false_eq_true, if_false, Option.some.injEq] at h
      subst h
      obtain ⟨done, hperm, hidx, hout⟩ := inv.acct
      refine ⟨inv.len, inv.pool, fun _ => rfl, ?_, ⟨done, ?_, ?_, hout⟩, ?_, ?_⟩
      · intro hex
        have := (inv.exit hex).1
        rw [hst] at this
        cases this
      · rw [hp] at hperm
        simpa [BlockingQueue.shutdown] using hperm
      · simpa [storedIndices] using hidx
      · intro w item hw
        have := inv.owner w item hw
        simpa [lastStepOf_cons_other, Event.byWorker] using this
      · exact writeOwned_cons_other inv.trace (by intro w i; simp)
  | cons t rest =>
    rw [hp] at h
    simp only [Option.some.injEq] at h
    subst h
    have hrun : s.input.m_stopped = false := by
      cases hst : s.input.m_stopped with
      | false => rfl
      | true =>
        have := inv.stop hst
        rw [hp] at this
        cases this
    obtain ⟨done, hperm, hidx, hout⟩ := inv.acct
    refine ⟨inv.len, inv.pool, ?_, ?_, ⟨done, ?_, ?_, hout⟩, ?_, ?_⟩
    · intro hst
      simp only [BlockingQueue.waitPush] at hst
      rw [hrun] at hst
      cases hst
    · intro hex
      have := (inv.exit hex).1
      rw [hrun] at this
      cases this
    · rw [hp] at hperm
      simpa [BlockingQueue.waitPush] using hperm
    · simpa [storedIndices] using hidx
    · intro w item hw
      have := inv.owner w item hw
      simpa [lastStepOf_cons_other, Event.byWorker] using this
    · exact writeOwned_cons_other inv.trace (by intro w i; simp)

theorem storeResult_some {storage storage1 : List EquationSolveResult} {id : Int}
    {result : String} (h : storeResult storage id result = some storage1) :
    0 ≤ id ∧ id.toNat < storage.length ∧ storage1 = storage.set id.toNat { result := result } := by
  unfold storeResult at h
  split at h
  · rename_i hb
    simp only [Option.some.injEq] at h
    refine ⟨hb.1, ?_, h.symm⟩
    omega
  · cases h

theorem owner_after_set {l : List ResolverPc} {history : List Event} {w : Nat}
    {pc : ResolverPc} {e : Event} (he : e.byWorker w = true)
    (hother : ∀ v, v ≠ w → e.byWorker v = false)
    (hpc : ∀ item, pc = ResolverPc.atStore item → e = Event.popped w item)
    (hown : ∀ (v : Nat) (item : Triplet), l[v]? = some (ResolverPc.atStore item) →
      lastStepOf v history = some (Event.popped v item)) :
    ∀ (v : Nat) (item : Triplet), (l.set w pc)[v]? = some (ResolverPc.atStore item) →
      lastStepOf v (e :: history) = some (Event.popped v item) := by
  intro v item hv
  rw [List.getElem?_set] at hv
  by_cases hwv : w = v
  · subst hwv
    simp only [if_true] at hv
    split at hv
    · simp only [Option.some.injEq] at hv
      rw [lastStepOf_cons_self _ he, hpc item hv]
    · cases hv
  · simp only [hwv, if_false] at hv
    rw [lastStepOf_cons_other _ (hother v (fun hvw => hwv hvw.symm))]
    exact hown v item hv

theorem inv_resolverStep {resolve : Triplet → String} {n : Nat} {batch : List Triplet}
    {workers : Nat} {s s1 : Pipeline} (hnodup : (batch.map Triplet.id).Nodup)
    (inv : Pipeline.Inv resolve n batch workers s) (w : Nat)
    (h : s.resolverStep resolve w = some s1) : Pipeline.Inv resolve n batch workers s1 := by
  unfold Pipeline.resolverStep at h
  obtain ⟨done, hperm, hidx, hout⟩ := inv.acct
  cases hpc : s.resolveConsumers[w]? with
  | none => simp [hpc] at h
  | some pc =>
    cases pc with
    | exited => simp [hpc] at h
    | atWaitPop =>
      simp only [hpc] at h
      cases hpop : s.input.waitPop {} with
      | none => simp [hpop] at h
      | some r =>
        obtain ⟨ok, item, q⟩ := r
        cases ok with
        | true =>
          simp only [hpop, Option.some.injEq] at h
          subst h
          obtain ⟨hq, hs⟩ := waitPop_true_inv hpop
          refine ⟨inv.len, ?_, ?_, ?_, ⟨done, ?_, ?_, hout⟩, ?_, ?_⟩
          · simpa using inv.pool
          · intro hst
            exact inv.stop (hs ▸ hst)
          · intro hex
            rcases List.mem_or_eq_of_mem_set hex with hmem | heq
            · have := (inv.exit hmem).2
              rw [hq] at this
              cases this
            · cases heq
          · rw [hq] at hperm
            refine hperm.trans ?_
            refine List.Perm.append_left done ?_
            have h1 := heldItems_set_atStore item hpc
            refine List.Perm.trans ?_ (List.Perm.append_right _ h1.symm)
            simp only [List.cons_append]
            exact List.perm_middle
          · simpa [storedIndices] using hidx
          · exact owner_after_set (by simp [Event.byWorker])
              (by intro v hv; simpa [Event.byWorker] using fun hvw => hv hvw.symm)
              (by intro it hit; cases hit; rfl) inv.owner
          · exact writeOwned_cons_other inv.trace (by intro v i; simp)
        | false =>
          simp only [hpop, Option.some.injEq] at h
          subst h
          obtain ⟨hst, hq, hsame⟩ := waitPop_false_inv hpop
          subst hsame
          refine ⟨inv.len, ?_, inv.stop, fun _ => ⟨hst, hq⟩, ⟨done, ?_, ?_, hout⟩, ?_, ?_⟩
          · simpa using inv.pool
          · rw [heldItems_set_exited hpc]
            exact hperm
          · simpa [storedIndices] using hidx
          · exact owner_after_set (by simp [Event.byWorker])
              (by intro v hv; simpa [Event.byWorker] using fun hvw => hv hvw.symm)
              (by intro it hit; cases hit) inv.owner
          · exact writeOwned_cons_other inv.trace (by intro v i; simp)
    | atStore item =>
      simp only [hpc] at h
      cases hst : storeResult s.output item.id (resolve item) with
      | none => simp [hst] at h
      | some storage =>
        simp only [hst, Option.some.injEq] at h
        subst h
        obtain ⟨hnonneg, hlt, hstorage⟩ := storeResult_some hst
        subst hstorage
        have hheld := heldItems_set_atWaitPop hpc
        have hitem : item ∈ heldItems s.resolveConsumers := mem_heldItems (List.getElem?_mem hpc)
        have hids : ((done ++ (heldItems s.resolveConsumers
            ++ (s.input.m_queue ++ s.toPush))).map Triplet.id).Nodup :=
          (hperm.map Triplet.id).nodup_iff.mp hnodup
        refine ⟨?_, ?_, inv.stop, ?_, ⟨item :: done, ?_, ?_, ?_⟩, ?_, ?_⟩
        · simpa using inv.len
        · simpa using inv.pool
        · intro hex
          rcases List.mem_or_eq_of_mem_set hex with hmem | heq
          · exact inv.exit hmem
          · cases heq
        · refine hperm.trans ?_
          simp only [List.cons_append]
          refine List.Perm.trans ?_ List.perm_middle
          exact List.Perm.append_left done (List.Perm.append_right _ hheld)
        · simp [storedIndices, hidx]
        · intro t ht
          rcases List.mem_cons.mp ht with heq | hmem
          · subst heq
            exact ⟨hnonneg, by simp [List.getElem?_set_self hlt]⟩
          · obtain ⟨htn, hto⟩ := hout t hmem
            refine ⟨htn, ?_⟩
            have hne : item.id ≠ t.id := by
              intro heq
              rw [List.map_append, List.nodup_append] at hids
              have hdis := hids.2.2
              exact hdis (List.mem_map_of_mem Triplet.id hmem)
                (heq ▸ List.mem_map_of_mem Triplet.id (List.mem_append_left _ hitem))
            have hne2 : item.id.toNat ≠ t.id.toNat := by omega
            simpa [List.getElem?_set_ne hne2] using hto
        · exact owner_after_set (by simp [Event.byWorker])
            (by intro v hv; simpa [Event.byWorker] using fun hvw => hv hvw.symm)
            (by intro it hit; cases hit) inv.owner
        · exact writeOwned_cons_stored inv.trace w item (inv.owner w item hpc)

theorem inv_step {resolve : Triplet → String} {n : Nat} {batch : List Triplet}
    {workers : Nat} {s s1 : Pipeline} (hnodup : (batch.map Triplet.id).Nodup)
    (inv : Pipeline.Inv resolve n batch workers s) (th : Thread)
    (h : s.step resolve th = some s1) : Pipeline.Inv resolve n batch workers s1 := by
  cases th with
  | producer => exact inv_producerStep inv h
  | resolver w => exact inv_resolverStep hnodup inv w h

theorem inv_run {resolve : Triplet → String} {n : Nat} {batch : List Triplet}
    {workers : Nat} (hnodup : (batch.map Triplet.id).Nodup) (schedule : List Thread)
    {s s1 : Pipeline} (inv : Pipeline.Inv resolve n batch workers s)
    (h : Pipeline.run resolve s schedule = some s1) :
    Pipeline.Inv resolve n batch workers s1 := by
  induction schedule generalizing s with
  | nil =>
    simp only [Pipeline.run, Option.some.injEq] at h
    exact h ▸ inv
  | cons th rest ih =>
    simp only [Pipeline.run] at h
    cases hs : s.step resolve th with
    | none => simp [hs] at h
    | some s2 =>
      simp only [hs] at h
      exact ih (inv_step hnodup inv th hs) h

/-! ## Claims about the worker pool -/

theorem placement_of_completed {resolve : Triplet → String} {n : Nat} {batch : List Triplet}
    {workers : Nat} {s : Pipeline} (inv : Pipeline.Inv resolve n batch workers s)
    (hworkers : 1 ≤ workers) (hdone : s.completed) :
    ∀ t ∈ batch, 0 ≤ t.id ∧ s.output[t.id.toNat]? = some { result := resolve t } := by
  obtain ⟨hpush, _, hexit⟩ := hdone
  have hpos : 0 < s.resolveConsumers.length := by
    rw [inv.pool]
    exact hworkers
  have hex : ResolverPc.exited ∈ s.resolveConsumers := by
    have h0 := List.getElem_mem hpos
    rwa [hexit _ h0] at h0
  have hq := (inv.exit hex).2
  obtain ⟨done, hperm, _, hout⟩ := inv.acct
  rw [heldItems_of_all_exited hexit, hq, hpush] at hperm
  simp only [List.append_nil] at hperm
  exact fun t ht => hout t (hperm.mem_iff.mp ht)

/-- C1, identity-indexed placement: for a batch whose ids are exactly `0..N-1`, any
number `workers ≥ 1` of resolver threads and any interleaving of the atomic steps, once
every triplet is pushed, `shutdown` was called and every worker has left its loop, the
buffer still has `N` slots and slot `i` holds `resolve` of the triplet with id `i`, for
every `i < N`. -/
theorem identity_indexed_placement (resolve : Triplet → String) (batch : List Triplet)
    (workers : Nat) (schedule : List Thread) (s : Pipeline)
    (hids : (batch.map Triplet.id).Perm ((List.range batch.length).map Int.ofNat))
    (hworkers : 1 ≤ workers)
    (hrun : Pipeline.run resolve (Pipeline.launch batch.length batch workers) schedule = some s)
    (hdone : s.completed) :
    s.output.length = batch.length ∧
    ∀ i : Nat, i < batch.length →
      ∃ t ∈ batch, t.id = (i : Int) ∧ s.output[i]? = some { result := resolve t } := by
  have hnodup : (batch.map Triplet.id).Nodup :=
    hids.nodup_iff.mpr ((List.nodup_range _).map Int.ofNat_injective)
  have inv := inv_run hnodup schedule (inv_launch resolve batch.length batch workers) hrun
  refine ⟨inv.len, ?_⟩
  intro i hi
  have hmem : (i : Int) ∈ batch.map Triplet.id :=
    hids.mem_iff.mpr (List.mem_map_of_mem Int.ofNat (List.mem_range.mpr hi))
  obtain ⟨t, ht, htid⟩ := List.mem_map.mp hmem
  refine ⟨t, ht, htid, ?_⟩
  have := (placement_of_completed inv hworkers hdone t ht).2
  rwa [htid, Int.toNat_ofNat] at this

/-- The run `sampleSchedule` of two workers over `sampleBatch` meets the premises of C1,
and its buffer is placed by id. -/
theorem identity_indexed_placement_witness :
    (sampleBatch.map Triplet.id).Perm ((List.range sampleBatch.length).map Int.ofNat)
    ∧ Pipeline.run sampleResolve (Pipeline.launch sampleBatch.length sampleBatch 2) sampleSchedule
        = some sampleFinal
    ∧ sampleFinal.completed
    ∧ (sampleFinal.output.length = sampleBatch.length ∧
        ∀ i : Nat, i < sampleBatch.length →
          ∃ t ∈ sampleBatch, t.id = (i : Int)
            ∧ sampleFinal.output[i]? = some { result := sampleResolve t }) :=
  ⟨by decide, by decide, by decide,
    identity_indexed_placement sampleResolve sampleBatch 2 sampleSchedule sampleFinal
      (by decide) (by decide) (by decide) (by decide)⟩

/-- C7, write-once: in every run of any number of workers over a batch whose ids are
pairwise distinct and within `[0, n)` (`n` the buffer length), no index is stored
twice; every store of index `i` by worker `w` is the step of `w` that directly follows
its own dequeue of a job with id `i`; and every store that is pending is within the
bounds of the buffer. -/
theorem write_once (resolve : Triplet → String) (n : Nat) (batch : List Triplet)
    (workers : Nat) (schedule : List Thread) (s : Pipeline)
    (hdistinct : (batch.map Triplet.id).Nodup)
    (hrange : ∀ t ∈ batch, 0 ≤ t.id ∧ t.id < (n : Int))
    (hrun : Pipeline.run resolve (Pipeline.launch n batch workers) schedule = some s) :
    (storedIndices s.history).Nodup
    ∧ (∀ (newer older : List Event) (w : Nat) (i : Int),
        s.history = newer ++ Event.stored w i :: older →
          ∃ item : Triplet, lastStepOf w older = some (Event.popped w item) ∧ item.id = i)
    ∧ (∀ (w : Nat) (item : Triplet), s.resolveConsumers[w]? = some (ResolverPc.atStore item) →
        (storeResult s.output item.id (resolve item)).isSome = true) := by
  have inv := inv_run hdistinct schedule (inv_launch resolve n batch workers) hrun
  obtain ⟨done, hperm, hidx, _⟩ := inv.acct
  refine ⟨?_, inv.trace, ?_⟩
  · have hids := (hperm.map Triplet.id).nodup_iff.mp hdistinct
    rw [List.map_append, List.nodup_append] at hids
    rw [hidx]
    exact hids.1
  · intro w item hw
    have hmem : item ∈ batch :=
      hperm.mem_iff.mpr (List.mem_append_right _
        (List.mem_append_left _ (mem_heldItems (List.getElem?_mem hw))))
    have hb := hrange item hmem
    simp [storeResult, hb.1, inv.len, hb.2]

/-- The run `sampleSchedule` meets the premises of C7: indices 0 and 1 are stored once
each, each by the worker that dequeued the job with that id. -/
theorem write_once_witness :
    (sampleBatch.map Triplet.id).Nodup
    ∧ (∀ t ∈ sampleBatch, 0 ≤ t.id ∧ t.id < ((2 : Nat) : Int))
    ∧ Pipeline.run sampleResolve (Pipeline.launch 2 sampleBatch 2) sampleSchedule
        = some sampleFinal
    ∧ ((storedIndices sampleFinal.history).Nodup
      ∧ (∀ (newer older : List Event) (w : Nat) (i : Int),
          sampleFinal.history = newer ++ Event.stored w i :: older →
            ∃ item : Triplet, lastStepOf w older = some (Event.popped w item) ∧ item.id = i)
      ∧ (∀ (w : Nat) (item : Triplet),
          sampleFinal.resolveConsumers[w]? = some (ResolverPc.atStore item) →
            (storeResult sampleFinal.output item.id (sampleResolve item)).isSome = true)) :=
  ⟨by decide, by decide, by decide,
    write_once sampleResolve 2 sampleBatch 2 sampleSchedule sampleFinal
      (by decide) (by decide) (by decide)⟩

/-! ## One producer, several consumers -/

section ContentionProofs

variable {α : Type}

theorem received_set_cons {l : List (Consumer α)} {c : Nat} {k k1 : Consumer α} {v : α}
    (h : l[c]? = some k) (hk : k1.received = v :: k.received) :
    ((l.set c k1).map Consumer.received).flatten.Perm
      (v :: (l.map Consumer.received).flatten) := by
  induction l generalizing c with
  | nil => simp at h
  | cons a rest ih =>
    cases c with
    | zero =>
      simp only [List.getElem?_cons_zero, Option.some.injEq] at h
      subst h
      simp [hk]
    | succ c =>
      simp only [List.getElem?_cons_succ] at h
      have ih1 := ih h
      simp only [List.set_cons_succ, List.map_cons, List.flatten_cons]
      exact (List.Perm.append_left a.received ih1).trans List.perm_middle

theorem received_set_same {l : List (Consumer α)} {c : Nat} {k k1 : Consumer α}
    (h : l[c]? = some k) (hk : k1.received = k.received) :
    (l.set c k1).map Consumer.received = l.map Consumer.received := by
  induction l generalizing c with
  | nil => simp at h
  | cons a rest ih =>
    cases c with
    | zero =>
      simp only [List.getElem?_cons_zero, Option.some.injEq] at h
      subst h
      simp [hk]
    | succ c =>
      simp only [List.getElem?_cons_succ] at h
      simp [ih h]

theorem contention_inv_launch (values : List α) (consumers : Nat) (v0 : α) :
    Contention.Inv values consumers (Contention.launch values consumers v0) where
  pool := by simp [Contention.launch]
  stop := by simp [Contention.launch, BlockingQueue.create]
  exit := by
    intro k hk hfin
    simp only [Contention.launch] at hk
    rw [(List.mem_replicate.mp hk).2] at hfin
    cases hfin
  acct := by
    have : (Contention.launch values consumers v0).received = [] := by
      simp only [Contention.received, Contention.launch, List.map_replicate]
      induction consumers with
      | zero => rfl
      | succ k ih => simp [List.replicate_succ]
    rw [this]
    simp [Contention.launch, BlockingQueue.create]

theorem contention_inv_step {values : List α} {consumers : Nat} {s s1 : Contention α}
    (inv : Contention.Inv values consumers s) (th : Option Nat)
    (h : s.step th = some s1) : Contention.Inv values consumers s1 := by
  cases th with
  | none =>
    simp only [Contention.step, Contention.producerStep] at h
    cases hp : s.toPush with
    | nil =>
      rw [hp] at h
      cases hst : s.q.m_stopped with
      | true => simp [hst] at h
      | false =>
        simp only [hst, Bool.false_eq_true, if_false, Option.some.injEq] at h
        subst h
        refine ⟨inv.pool, fun _ => rfl, ?_, ?_⟩
        · intro k hk hfin
          have := (inv.exit k hk hfin).1
          rw [hst] at this
          cases this
        · have := inv.acct
          rw [hp] at this
          simpa [Contention.received, BlockingQueue.shutdown] using this
    | cons x rest =>
      rw [hp] at h
      simp only [Option.some.injEq] at h
      subst h
      have hrun : s.q.m_stopped = false := by
        cases hst : s.q.m_stopped with
        | false => rfl
        | true =>
          have := inv.stop hst
          rw [hp] at this
          cases this
      refine ⟨inv.pool, ?_, ?_, ?_⟩
      · intro hst
        simp only [BlockingQueue.waitPush] at hst
        rw [hrun] at hst
        cases hst
      · intro k hk hfin
        have := (inv.exit k hk hfin).1
        rw [hrun] at this
        cases this
      · have := inv.acct
        rw [hp] at this
        simpa [Contention.received, BlockingQueue.waitPush] using this
  | some c =>
    simp only [Contention.step, Contention.consumerStep] at h
    cases hc : s.consumers[c]? with
    | none => simp [hc] at h
    | some k =>
      simp only [hc] at h
      cases hfin : k.finished with
      | true => simp [hfin] at h
      | false =>
        simp only [hfin, Bool.false_eq_true, if_false] at h
        cases hpop : s.q.waitPop k.value with
        | none => simp [hpop] at h
        | some r =>
          obtain ⟨ok, v, q1⟩ := r
          cases ok with
          | true =>
            simp only [hpop, Option.some.injEq] at h
            subst h
            obtain ⟨hq, hs⟩ := waitPop_true_inv hpop
            refine ⟨by simpa using inv.pool, fun hst => inv.stop (hs ▸ hst), ?_, ?_⟩
            · intro k2 hk2 hfin2
              rcases List.mem_or_eq_of_mem_set hk2 with hmem | heq
              · have := (inv.exit k2 hmem hfin2).2
                rw [hq] at this
                cases this
              · subst heq
                simp only at hfin2
                cases hfin2
            · have hperm := inv.acct
              rw [hq] at hperm
              refine hperm.trans ?_
              have h1 : ((s.consumers.set c
                  { value := v, received := v :: k.received, finished := false }).map
                    Consumer.received).flatten.Perm
                  (v :: (s.consumers.map Consumer.received).flatten) :=
                received_set_cons hc rfl
              simp only [Contention.received]
              refine List.Perm.trans ?_ (List.Perm.append_right _ h1.symm)
              simp only [List.cons_append]
              exact List.perm_middle
          | false =>
            simp only [hpop, Option.some.injEq] at h
            subst h
            obtain ⟨hst, hq, hsame⟩ := waitPop_false_inv hpop
            subst hsame
            refine ⟨by simpa using inv.pool, inv.stop, fun _ _ _ => ⟨hst, hq⟩, ?_⟩
            have h1 : (s.consumers.set c { k with value := v, finished := true }).map
                Consumer.received = s.consumers.map Consumer.received :=
              received_set_same hc rfl
            simpa [Contention.received, h1] using inv.acct

theorem contention_inv_run {values : List α} {consumers : Nat}
    (schedule : List (Option Nat)) {s s1 : Contention α}
    (inv : Contention.Inv values consumers s) (h : Contention.run s schedule = some s1) :
    Contention.Inv values consumers s1 := by
  induction schedule generalizing s with
  | nil =>
    simp only [Contention.run, Option.some.injEq] at h
    exact h ▸ inv
  | cons th rest ih =>
    simp only [Contention.run] at h
    cases hs : s.step th with
    | none => simp [hs] at h
    | some s2 =>
      simp only [hs] at h
      exact ih (contention_inv_step inv th hs) h

/-- C4, no duplication and no loss under contention: in every interleaving of the atomic
queue steps of one producer, which pushes the distinct `values` and then calls
`shutdown`, and of `consumers ≥ 1` consumers, each calling `waitPop` until it returns
`false`, once all of them are done the values received over all consumers are, as a
multiset, exactly the values pushed, and no value was received twice. -/
theorem no_duplication_no_loss (values : List α) (consumers : Nat) (v0 : α)
    (schedule : List (Option Nat)) (s : Contention α)
    (hdistinct : values.Nodup) (hconsumers : 1 ≤ consumers)
    (hrun : Contention.run (Contention.launch values consumers v0) schedule = some s)
    (hdone : s.completed) :
    (s.received : Multiset α) = (values : Multiset α) ∧ s.received.Nodup := by
  have inv := contention_inv_run schedule (contention_inv_launch values consumers v0) hrun
  obtain ⟨hpush, _, hfin⟩ := hdone
  have hpos : 0 < s.consumers.length := by
    rw [inv.pool]
    exact hconsumers
  have h0 := List.getElem_mem hpos
  have hq := (inv.exit _ h0 (hfin _ h0)).2
  have hperm := inv.acct
  rw [hq, hpush] at hperm
  simp only [List.append_nil] at hperm
  exact ⟨Multiset.coe_eq_coe.mpr hperm.symm, hperm.nodup_iff.mp hdistinct⟩

/-- The run `sampleContest` of two consumers over the values 10, 20, 30 meets the premises
of C4: one consumer receives 20 and 30, the other 10. -/
theorem no_duplication_no_loss_witness :
    ([10, 20, 30] : List Int).Nodup
    ∧ Contention.run (Contention.launch [10, 20, 30] 2 (0 : Int)) sampleContest
        = some sampleContestFinal
    ∧ sampleContestFinal.completed
    ∧ ((sampleContestFinal.received : Multiset Int) = (([10, 20, 30] : List Int) : Multiset Int)
        ∧ sampleContestFinal.received.Nodup) :=
  ⟨by decide, by decide, ⟨rfl, rfl, by decide⟩,
    no_duplication_no_loss [10, 20, 30] 2 0 sampleContest sampleContestFinal
      (by decide) (by decide) (by decide) ⟨rfl, rfl, by decide⟩⟩

end ContentionProofs

/-! ## app/main.cpp: the number of workers and the end-to-end run -/

theorem spawnLoop_eq (threads i : Nat) (pool : List ResolverPc) :
    spawnLoop threads i pool = pool ++ List.replicate (threads - i) ResolverPc.atWaitPop := by
  generalize h : threads - i = k
  induction k generalizing i pool with
  | zero =>
    rw [spawnLoop]
    have : ¬ i < threads := by omega
    simp [this]
  | succ k ih =>
    rw [spawnLoop]
    have : i < threads := by omega
    simp only [this, if_true]
    rw [ih (i + 1) _ (by omega)]
    simp [List.replicate_succ]

theorem main_worker_count (hardware_concurrency : Nat) (triplets : List Triplet) :
    (mainPipeline hardware_concurrency triplets).resolveConsumers
      = List.replicate (threadCount hardware_concurrency - 1) ResolverPc.atWaitPop := by
  simp [mainPipeline, spawnLoop_eq]

theorem mainPipeline_eq_launch (hardware_concurrency : Nat) (triplets : List Triplet) :
    mainPipeline hardware_concurrency triplets
      = Pipeline.launch triplets.length (pushLoop 0 triplets)
          (threadCount hardware_concurrency - 1) := by
  simp [mainPipeline, Pipeline.launch, spawnLoop_eq]

theorem producer_runs_alone (resolve : Triplet → String) (batch : List Triplet) (s : Pipeline)
    (hpush : s.toPush = batch) (hrunning : s.input.m_stopped = false) :
    ∃ s1, Pipeline.run resolve s (List.replicate (batch.length + 1) Thread.producer) = some s1
      ∧ s1.toPush = [] ∧ s1.input.m_stopped = true ∧ s1.output = s.output
      ∧ s1.resolveConsumers = s.resolveConsumers := by
  induction batch generalizing s with
  | nil =>
    refine ⟨{ s with input := s.input.shutdown, history := Event.shutdown :: s.history }, ?_,
      hpush, rfl, rfl, rfl⟩
    simp [Pipeline.run, Pipeline.step, Pipeline.producerStep, hpush, hrunning]
  | cons t rest ih =>
    obtain ⟨s1, h1, h2, h3, h4, h5⟩ :=
      ih { s with input := s.input.waitPush t, toPush := rest,
                  history := Event.pushed t :: s.history } rfl hrunning
    refine ⟨s1, ?_, h2, h3, h4, h5⟩
    rw [List.length_cons, List.replicate_succ]
    simp only [Pipeline.run, Pipeline.step, Pipeline.producerStep, hpush]
    exact h1

theorem pushLoop_length (i : Nat) (triplets : List Triplet) :
    (pushLoop i triplets).length = triplets.length := by
  induction triplets generalizing i with
  | nil => rfl
  | cons t rest ih => simp [pushLoop, ih]

/-- C6: with `hardware_concurrency() = 1` the loop of `main` that creates the worker
threads runs zero times, so `main` starts no worker at all, whatever the triplets are;
with the value 0 it starts three. -/
theorem main_starts_no_worker_on_one_core (triplets : List Triplet) :
    (mainPipeline 1 triplets).resolveConsumers.length = 0
    ∧ (mainPipeline 0 triplets).resolveConsumers.length = 3 := by
  simp [main_worker_count, threadCount]

/-- C5: with `hardware_concurrency() = 1` `main` pushes every triplet, calls `shutdown`,
has no thread to join and so reaches the print loop, with every slot of the result
buffer still holding the empty result. -/
theorem main_prints_empty_results_on_one_core (resolve : Triplet → String)
    (triplets : List Triplet) :
    ∃ s, Pipeline.run resolve (mainPipeline 1 triplets)
          (List.replicate (triplets.length + 1) Thread.producer) = some s
      ∧ s.completed
      ∧ s.output = List.replicate triplets.length { result := "" } := by
  obtain ⟨s, h1, h2, h3, h4, h5⟩ :=
    producer_runs_alone resolve (pushLoop 0 triplets) (mainPipeline 1 triplets) rfl rfl
  rw [pushLoop_length] at h1
  refine ⟨s, h1, ⟨h2, h3, ?_⟩, ?_⟩
  · rw [h5, main_worker_count]
    simp [threadCount]
  · rw [h4]
    rfl

theorem pushLoop_getElem? (i j : Nat) (triplets : List Triplet) :
    (pushLoop i triplets)[j]?
      = triplets[j]?.map (fun t => { t with id := ((i + j : Nat) : Int) }) := by
  induction triplets generalizing i j with
  | nil => simp [pushLoop]
  | cons t rest ih =>
    cases j with
    | zero => simp [pushLoop]
    | succ j =>
      simp only [pushLoop, List.getElem?_cons_succ, ih]
      have : i + 1 + j = i + (j + 1) := by omega
      rw [this]

theorem pushLoop_ids (i : Nat) (triplets : List Triplet) :
    (pushLoop i triplets).map Triplet.id = (List.range' i triplets.length).map Int.ofNat := by
  induction triplets generalizing i with
  | nil => rfl
  | cons t rest ih => simp [pushLoop, ih, List.range'_succ]

/-- Away from the one-core case (`threadCount` at least 2, which includes the fallback 4
for a reported 0), every run of `main` that reaches the print loop has slot `i` holding
`resolve` of the `i`-th parsed triplet, carrying id `i`. -/
theorem main_populated_of_two_threads (resolve : Triplet → String)
    (hardware_concurrency : Nat) (triplets : List Triplet) (schedule : List Thread)
    (s : Pipeline) (hthreads : 2 ≤ threadCount hardware_concurrency)
    (hrun : Pipeline.run resolve (mainPipeline hardware_concurrency triplets) schedule = some s)
    (hdone : s.completed) :
    s.output.length = triplets.length ∧
    ∀ (i : Nat) (t : Triplet), triplets[i]? = some t →
      s.output[i]? = some { result := resolve { t with id := (i : Int) } } := by
  rw [mainPipeline_eq_launch] at hrun
  have hnodup : ((pushLoop 0 triplets).map Triplet.id).Nodup := by
    rw [pushLoop_ids]
    exact (List.nodup_range' _ _).map Int.ofNat_injective
  have inv := inv_run hnodup schedule (inv_launch resolve _ _ _) hrun
  refine ⟨inv.len, ?_⟩
  intro i t hit
  have hget : (pushLoop 0 triplets)[i]? = some { t with id := (i : Int) } := by
    rw [pushLoop_getElem?, hit]
    simp
  have hmem := List.getElem?_mem hget
  have := (placement_of_completed inv (by omega) hdone _ hmem).2
  simpa using this

/-! ## Late pushes, monotonic and idempotent shutdown -/

section ShutdownClaims

open BlockingQueue

variable {α : Type}

theorem applyOp_stopped (q : BlockingQueue α) (op : QueueOp α) (h : q.m_stopped = true) :
    (q.applyOp op).m_stopped = true := by
  cases op with
  | push item => exact h
  | shutdown => rfl
  | pop out =>
    simp only [applyOp]
    cases hp : q.waitPop out with
    | none => exact h
    | some r =>
      obtain ⟨ok, o, q1⟩ := r
      cases ok with
      | true => rw [(waitPop_true_inv hp).2]; exact h
      | false => rw [(waitPop_false_inv hp).2.2]; exact h

theorem applyOps_stopped (q : BlockingQueue α) (ops : List (QueueOp α))
    (h : q.m_stopped = true) : (q.applyOps ops).m_stopped = true := by
  induction ops generalizing q with
  | nil => exact h
  | cons op rest ih => exact ih (q.applyOp op) (applyOp_stopped q op h)

theorem shutdownTimes_succ (n : Nat) (q : BlockingQueue α) :
    shutdownTimes (n + 1) q = ⟨q.m_queue, true⟩ := by
  induction n generalizing q with
  | zero => rfl
  | succ n ih => exact ih q.shutdown

/-- C11, late push is delivered: in a state whose flag is already set, with item
sequence `s`, `waitPush x` appends `x` (it has no failing case), and the next
`s.length + 1` calls of `waitPop` all return `true`, handing over `s` in order and then
`x`; so none of them returns `false` before `x` is handed over. -/
theorem late_push_is_delivered (s : List α) (x out : α) :
    waitPush ⟨s, true⟩ x = ⟨s ++ [x], true⟩
    ∧ popMany (s.length + 1) (waitPush ⟨s, true⟩ x) out
        = some ((s ++ [x]).map (fun y => (true, y)), ⟨[], true⟩) := by
  refine ⟨rfl, ?_⟩
  have h := popMany_items (s ++ [x]) [] true out
  simpa [waitPush] using h

/-- C12, monotonic shutdown: from a state whose flag is set, every sequence of
`waitPush`, `waitPop` and `shutdown` calls ends in a state whose flag is set; as this
holds for every sequence, it holds for each state on the way. -/
theorem shutdown_is_monotonic (items : List α) (ops : List (QueueOp α)) :
    (applyOps ⟨items, true⟩ ops).m_stopped = true
    ∧ ∀ (before after : List (QueueOp α)) (q : BlockingQueue α),
        ((q.applyOps before).shutdown.applyOps after).m_stopped = true :=
  ⟨applyOps_stopped _ ops rfl, fun _ after _ => applyOps_stopped _ after rfl⟩

/-- C13, idempotent shutdown: `shutdown` applied twice is `shutdown` applied once, and
any number `n + 1` of calls leaves the state one call leaves: the flag set and the item
sequence that of the state before. -/
theorem shutdown_is_idempotent (q : BlockingQueue α) (n : Nat) :
    q.shutdown.shutdown = q.shutdown
    ∧ shutdownTimes (n + 1) q = q.shutdown
    ∧ q.shutdown = ⟨q.m_queue, true⟩ :=
  ⟨rfl, shutdownTimes_succ n q, rfl⟩

end ShutdownClaims

/-! ## Out-of-range identities -/

theorem subscript_of_in_range {id : Int} {n : Nat} (h0 : 0 ≤ id) (hn : id < n)
    (hsize : n < 2 ^ 63) : (id % 2 ^ 64).toNat = id.toNat := by
  have : id % 2 ^ 64 = id := Int.emod_eq_of_lt h0 (by omega)
  rw [this]

theorem subscript_of_out_of_range {id : Int} {n : Nat} (hid : -2 ^ 63 ≤ id ∧ id < 2 ^ 63)
    (hsize : n < 2 ^ 63) (h : ¬ (0 ≤ id ∧ id < n)) : n ≤ (id % 2 ^ 64).toNat := by
  by_cases h0 : 0 ≤ id
  · have : id % 2 ^ 64 = id := Int.emod_eq_of_lt h0 (by omega)
    rw [this]
    omega
  · have : id % 2 ^ 64 = id + 2 ^ 64 := by
      have h1 : (id + 2 ^ 64) % 2 ^ 64 = id + 2 ^ 64 := Int.emod_eq_of_lt (by omega) (by omega)
      rw [← h1]
      simp
    rw [this]
    omega

/-- On `int64_t` ids and vectors shorter than `2^63`, `storeResult` (the store as the
run model uses it) is `loopBody` with both failure modes mapped to `none`. -/
theorem storeResult_eq_loopBody (resolve : Triplet → String)
    (storage : List EquationSolveResult) (item : Triplet)
    (hid : -2 ^ 63 ≤ item.id ∧ item.id < 2 ^ 63) (hsize : storage.length < 2 ^ 63) :
    storeResult storage item.id (resolve item)
      = match loopBody resolve storage item with
        | BodyOutcome.stored storage1 => some storage1
        | _ => none := by
  by_cases h : 0 ≤ item.id ∧ item.id < storage.length
  · have hidx := subscript_of_in_range h.1 h.2 hsize
    have hlt : item.id.toNat < storage.length := by omega
    simp only [storeResult, loopBody, h, hidx, hlt, and_self, if_true]
  · have hidx := subscript_of_out_of_range hid hsize h
    have hlt : ¬ (item.id % 2 ^ 64).toNat < storage.length := by omega
    simp only [storeResult, loopBody, h, hlt, if_false]

/-- For a subscript below `size()` the address arithmetic designates that very element
(the vector occupies at most `2^64` bytes). -/
theorem elementAt_of_in_range {elemSize size n : Nat} (hpos : 0 < elemSize) (hn : n < size)
    (hbytes : size * elemSize ≤ 2 ^ 64) :
    elementAt elemSize size (subscriptOffset elemSize n) = some n := by
  have hlt : n * elemSize < 2 ^ 64 :=
    lt_of_lt_of_le (Nat.mul_lt_mul_of_pos_right hn hpos) hbytes
  have hoff : subscriptOffset elemSize n = n * elemSize := Nat.mod_eq_of_lt hlt
  have hdiv : n * elemSize / elemSize = n := Nat.mul_div_cancel n hpos
  have hmod : n * elemSize % elemSize = 0 := Nat.mul_mod_left n elemSize
  unfold elementAt
  rw [hoff, hdiv, hmod, if_pos ⟨hpos, rfl, hn⟩]

/-- The subscript `2^63`, which is what the id `-2^63` converts to, designates element 0
of every non-empty vector whose element size is even: `2^63 * sizeof` is a multiple of
`2^64`. -/
theorem elementAt_of_min_id {elemSize size : Nat} (hpos : 0 < elemSize)
    (heven : elemSize % 2 = 0) (hsize : 0 < size) :
    elementAt elemSize size (subscriptOffset elemSize (2 ^ 63)) = some 0 := by
  have hoff : subscriptOffset elemSize (2 ^ 63) = 0 := by
    unfold subscriptOffset
    omega
  unfold elementAt
  rw [hoff, if_pos ⟨hpos, Nat.zero_mod _, by rw [Nat.zero_div]; exact hsize⟩, Nat.zero_div]

/-- With 32-byte elements and a one-slot buffer: the subscript `2^59`, a positive id,
designates slot 0 as well, while the subscript `2^64 - 1`, the default id `-1`,
designates no element. -/
theorem elementAt_samples :
    elementAt 32 1 (subscriptOffset 32 (2 ^ 59)) = some 0
    ∧ loopBody sampleResolve [{ result := "" }] { a := 1, b := 2, c := 1, id := 2 ^ 59 }
        = BodyOutcome.undefinedSubscript (2 ^ 59)
    ∧ elementAt 32 1 (subscriptOffset 32 (2 ^ 64 - 1)) = none := by
  decide

/-- C14, as stated, fails: a worker that dequeued the job with the default id `-1` over
a one-slot buffer does not stop with a fatal failure; it goes on to the store and
evaluates `m_resolveStorage[2^64 - 1]`, with undefined behaviour. -/
theorem out_of_range_id_is_not_fatal :
    ¬ (∀ (resolve : Triplet → String) (storage : List EquationSolveResult) (item : Triplet),
        ¬ (0 ≤ item.id ∧ item.id < storage.length) →
          loopBody resolve storage item = BodyOutcome.aborted)
    ∧ loopBody sampleResolve [{ result := "" }] { a := 1, b := 2, c := 1, id := -1 }
        = BodyOutcome.undefinedSubscript 18446744073709551615 := by
  refine ⟨?_, by decide⟩
  intro h
  have h1 := h sampleResolve [{ result := "" }] { a := 1, b := 2, c := 1, id := -1 } (by decide)
  revert h1
  decide

/-- C14, amended: the body of the loop has no bounds check and no fatal stop.  For an
`int64_t` id and a buffer of `N < 2^63` slots it never aborts.  With the id in `[0, N)`
it replaces slot `id` and goes on.  With the id outside `[0, N)` it evaluates
`m_resolveStorage[n]` for `n` the id modulo `2^64`, which is at least `N`: undefined
behaviour, with no promise about the memory the store modifies.  In particular it is
not promised that no slot is modified: the id `-2^63` over a non-empty buffer makes
`operator[]` form the address of slot 0, whatever the (even) size of an element. -/
theorem out_of_range_store_is_unchecked (resolve : Triplet → String)
    (storage : List EquationSolveResult) (item : Triplet)
    (hid : -2 ^ 63 ≤ item.id ∧ item.id < 2 ^ 63) (hsize : storage.length < 2 ^ 63) :
    loopBody resolve storage item ≠ BodyOutcome.aborted
    ∧ ((0 ≤ item.id ∧ item.id < storage.length) →
        loopBody resolve storage item
          = BodyOutcome.stored (storage.set item.id.toNat { result := resolve item }))
    ∧ (¬ (0 ≤ item.id ∧ item.id < storage.length) →
        storage.length ≤ (item.id % 2 ^ 64).toNat
          ∧ loopBody resolve storage item
              = BodyOutcome.undefinedSubscript (item.id % 2 ^ 64).toNat)
    ∧ (∀ elemSize : Nat, 0 < elemSize → elemSize % 2 = 0 → storage ≠ [] →
        loopBody resolve storage { item with id := -2 ^ 63 }
            = BodyOutcome.undefinedSubscript (2 ^ 63)
          ∧ elementAt elemSize storage.length (subscriptOffset elemSize (2 ^ 63)) = some 0) := by
  refine ⟨?_, ?_, ?_, ?_⟩
  · unfold loopBody
    simp only
    split <;> simp
  · intro h
    have hidx := subscript_of_in_range h.1 h.2 hsize
    have hlt : item.id.toNat < storage.length := by omega
    simp only [loopBody, hidx, hlt, if_true]
  · intro h
    have hidx := subscript_of_out_of_range hid hsize h
    have hlt : ¬ (item.id % 2 ^ 64).toNat < storage.length := by omega
    exact ⟨hidx, by simp only [loopBody, hlt, if_false]⟩
  · intro elemSize hpos heven hne
    have hlen : 0 < storage.length := List.length_pos.mpr hne
    have hidx : ((-2 ^ 63 : Int) % 2 ^ 64).toNat = 2 ^ 63 := by decide
    have hlt : ¬ 2 ^ 63 < storage.length := by omega
    exact ⟨by simp only [loopBody, hidx, hlt, if_false], elementAt_of_min_id hpos heven hlen⟩

/-- The jobs with the ids `-1` and `-2^63` over a one-slot buffer of 32-byte elements:
neither aborts; the first evaluates the subscript `2^64 - 1`, the second the subscript
`2^63`, whose address is that of slot 0. -/
theorem out_of_range_store_is_unchecked_witness :
    (-2 ^ 63 ≤ (-1 : Int) ∧ (-1 : Int) < 2 ^ 63)
    ∧ ([{ result := "" }] : List EquationSolveResult).length < 2 ^ 63
    ∧ (1 ≤ 18446744073709551615
        ∧ loopBody sampleResolve [{ result := "" }] { a := 1, b := 2, c := 1, id := -1 }
            = BodyOutcome.undefinedSubscript 18446744073709551615)
    ∧ (loopBody sampleResolve [{ result := "" }] { a := 1, b := 2, c := 1, id := -2 ^ 63 }
          = BodyOutcome.undefinedSubscript 9223372036854775808
        ∧ elementAt 32 1 (subscriptOffset 32 9223372036854775808) = some 0) :=
  have h := out_of_range_store_is_unchecked sampleResolve [{ result := "" }]
    { a := 1, b := 2, c := 1, id := -1 } (by decide) (by decide)
  ⟨by decide, by decide, h.2.2.1 (by decide), h.2.2.2 32 (by decide) (by decide) (by decide)⟩

/-! ## lib/cli/cli_parser.cpp: `parse` -/

theorem filterMap_range'_eq_nil {β : Type} (f : Nat → Option β) (k n : Nat)
    (h : ∀ j, k ≤ j → f j = none) : (List.range' k n).filterMap f = [] := by
  induction n generalizing k with
  | zero => rfl
  | succ n ih =>
    rw [List.range'_succ, List.filterMap_cons, h k (Nat.le_refl k)]
    exact ih (k + 1) (fun j hj => h j (by omega))

theorem parseLoop_eq (argv : List String) (fuel k : Nat) (triplets : List Triplet) :
    parseLoop argv fuel (3 * k + 1) triplets
      = triplets ++ (List.range' k fuel).filterMap
          (fun j => if 3 * j + 3 < argv.length then _parseTriplet argv (3 * j + 1) else none) := by
  induction fuel generalizing k triplets with
  | zero => simp [parseLoop]
  | succ fuel ih =>
    rw [parseLoop]
    by_cases hgroup : 3 * k + 3 < argv.length
    · have h1 : 3 * k + 1 < argv.length := by omega
      have h2 : ¬ 3 * k + 1 + 2 ≥ argv.length := by omega
      have hnext : 3 * k + 1 + 3 = 3 * (k + 1) + 1 := by omega
      simp only [h1, h2, if_true, if_false, hnext, ih, List.range'_succ, List.filterMap_cons,
        hgroup]
      cases _parseTriplet argv (3 * k + 1) with
      | none => rfl
      | some t => simp
    · have hnil := filterMap_range'_eq_nil
        (fun j => if 3 * j + 3 < argv.length then _parseTriplet argv (3 * j + 1) else none)
        k (fuel + 1) (fun j hj => by
          have : ¬ 3 * j + 3 < argv.length := by omega
          simp [this])
      rw [hnil, List.append_nil]
      by_cases h1 : 3 * k + 1 < argv.length
      · have h2 : 3 * k + 1 + 2 ≥ argv.length := by omega
        simp [h1, h2]
      · simp [h1]

theorem parseLoop_from_start (argv : List String) :
    parseLoop argv argv.length 1 [] = alignedValidTriplets argv := by
  have h := parseLoop_eq argv argv.length 0 []
  simpa [alignedValidTriplets, List.range_eq_range'] using h

/-- More iterations than `argc` change nothing: the bound in `parse` never cuts the
loop short. -/
theorem parseLoop_fuel_enough (argv : List String) (extra : Nat) :
    parseLoop argv (argv.length + extra) 1 [] = parseLoop argv argv.length 1 [] := by
  have h1 := parseLoop_eq argv (argv.length + extra) 0 []
  have h2 := parseLoop_eq argv argv.length 0 []
  simp only [Nat.mul_zero, Nat.zero_add] at h1 h2
  rw [h1, h2, Nat.add_comm argv.length extra,
    (List.range'_append_1 0 argv.length extra).symm, List.filterMap_append]
  rw [filterMap_range'_eq_nil _ (0 + argv.length) extra (fun j hj => by
    have : ¬ 3 * j + 3 < argv.length := by omega
    simp [this])]
  simp

theorem parse_eq (argv : List String) :
    parse argv =
      if argv.length = 1 then
        Except.error "Invalid input: missing command line arguments"
      else if alignedValidTriplets argv = [] then
        Except.error "Invalid input: no valid parameters"
      else
        Except.ok { triplets := alignedValidTriplets argv } := by
  unfold parse
  simp only [parseLoop_from_start, List.isEmpty_iff]
  have hiff : ((argv.length : Int) - 1 = 0) ↔ argv.length = 1 := by omega
  by_cases h : argv.length = 1
  · simp [h]
  · have h1 : ¬ ((argv.length : Int) - 1 = 0) := fun hh => h (hiff.mp hh)
    simp only [h, h1, if_false]

/-- C15: `parse` throws "missing command line arguments" exactly for `argc = 1`; it
throws "no valid parameters" exactly when `argc` is not 1 and no aligned complete group
of three converts; and it returns, with a non-empty list, exactly in the remaining
case. -/
theorem parse_throws_exactly_without_valid_triplet (argv : List String) :
    (parse argv = Except.error "Invalid input: missing command line arguments"
        ↔ argv.length = 1)
    ∧ (parse argv = Except.error "Invalid input: no valid parameters"
        ↔ (argv.length ≠ 1 ∧ alignedValidTriplets argv = []))
    ∧ ((∃ args, parse argv = Except.ok args ∧ args.triplets ≠ [])
        ↔ (argv.length ≠ 1 ∧ alignedValidTriplets argv ≠ [])) := by
  rw [parse_eq]
  by_cases h1 : argv.length = 1
  · simp [h1]
  · by_cases h2 : alignedValidTriplets argv = []
    · simp only [h1, h2, if_false, if_true]
      refine ⟨?_, ?_, ?_⟩
      · simp only [iff_false]
        intro h
        injection h with h
        revert h
        decide
      · simp [h1]
      · simp
    · simp only [h1, h2, if_false]
      exact ⟨by simp, by simp, fun _ => ⟨h1, h2⟩, fun _ => ⟨_, rfl, h2⟩⟩

/-- C16: whenever `parse` returns, its result is exactly the list, in increasing `k`,
of the triplets of the aligned groups `(argv[3k+1], argv[3k+2], argv[3k+3])` that are
complete and whose three tokens all convert; a group with a token that does not
convert, and a trailing group of fewer than three tokens, contribute nothing and shift
no other group. -/
theorem parse_keeps_valid_groups_in_order (argv : List String) (args : CliArgs)
    (h : parse argv = Except.ok args) : args.triplets = alignedValidTriplets argv := by
  rw [parse_eq] at h
  by_cases h1 : argv.length = 1
  · simp [h1] at h
  · by_cases h2 : alignedValidTriplets argv = []
    · simp [h1, h2] at h
    · simp only [h1, h2, if_false, Except.ok.injEq] at h
      rw [← h]

/-- The third case of the test `ParseCombination_Valid_InvalidInput`: the second group
holds garbage and the last group has one token; the first and third groups are kept. -/
theorem parse_keeps_valid_groups_in_order_witness :
    parse ["app_name", "1", "2", "3", "10", "b", "30", "-10", "-20", "-30", "a"]
        = Except.ok { triplets := [{ a := 1, b := 2, c := 3 }, { a := -10, b := -20, c := -30 }] }
    ∧ ([{ a := 1, b := 2, c := 3 }, { a := -10, b := -20, c := -30 }] : List Triplet)
        = alignedValidTriplets
            ["app_name", "1", "2", "3", "10", "b", "30", "-10", "-20", "-30", "a"] :=
  ⟨rfl, parse_keeps_valid_groups_in_order
    ["app_name", "1", "2", "3", "10", "b", "30", "-10", "-20", "-30", "a"]
    { triplets := [{ a := 1, b := 2, c := 3 }, { a := -10, b := -20, c := -30 }] } rfl⟩

/-! ## lib/cli/cli_parser.cpp: decimal renderings convert back -/

theorem digitChar_spec (d : Nat) (h : d < 10) :
    (Nat.digitChar d).isDigit = true ∧ (Nat.digitChar d).toNat - 48 = d := by
  interval_cases d <;> exact ⟨rfl, rfl⟩

theorem digitsValue_append_single (pre : List Char) (c : Char) :
    digitsValue (pre ++ [c]) = 10 * digitsValue pre + (c.toNat - 48) := by
  simp [digitsValue, List.foldl_append]

theorem toDigitsCore_spec (fuel n : Nat) (ds : List Char) (h : n < fuel) :
    ∃ pre, Nat.toDigitsCore 10 fuel n ds = pre ++ ds ∧ pre ≠ []
      ∧ (∀ c ∈ pre, c.isDigit = true) ∧ digitsValue pre = n := by
  induction fuel generalizing n ds with
  | zero => omega
  | succ fuel ih =>
    have hd := digitChar_spec (n % 10) (Nat.mod_lt _ (by decide))
    simp only [Nat.toDigitsCore]
    by_cases h0 : n / 10 = 0
    · refine ⟨[Nat.digitChar (n % 10)], by simp [h0], by simp, ?_, ?_⟩
      · intro c hc
        rw [List.mem_singleton.mp hc]
        exact hd.1
      · have := digitsValue_append_single [] (Nat.digitChar (n % 10))
        simp only [List.nil_append] at this
        rw [this, hd.2]
        simp only [digitsValue, List.foldl_nil]
        omega
    · obtain ⟨pre, h1, _, h3, h4⟩ := ih (n / 10) (Nat.digitChar (n % 10) :: ds) (by omega)
      refine ⟨pre ++ [Nat.digitChar (n % 10)], by simp [h0, h1], by simp, ?_, ?_⟩
      · intro c hc
        rcases List.mem_append.mp hc with hc | hc
        · exact h3 c hc
        · rw [List.mem_singleton.mp hc]
          exact hd.1
      · rw [digitsValue_append_single, h4, hd.2]
        omega

theorem toString_nat_spec (n : Nat) :
    (toString n).toList ≠ [] ∧ (∀ c ∈ (toString n).toList, c.isDigit = true)
      ∧ digitsValue (toString n).toList = n := by
  obtain ⟨pre, h1, h2, h3, h4⟩ := toDigitsCore_spec (n + 1) n [] (Nat.lt_succ_self n)
  have hs : (toString n).toList = Nat.toDigitsCore 10 (n + 1) n [] := rfl
  rw [hs, h1, List.append_nil]
  exact ⟨h2, h3, h4⟩

theorem takeWhile_of_all {p : Char → Bool} (l : List Char) (h : ∀ c ∈ l, p c = true) :
    l.takeWhile p = l := by
  induction l with
  | nil => rfl
  | cons c rest ih =>
    rw [List.takeWhile_cons, h c (List.mem_cons_self _ _)]
    simp only [if_true, List.cons.injEq, true_and]
    exact ih (fun d hd => h d (List.mem_cons_of_mem _ hd))

theorem from_chars_digits (ds : List Char) (hne : ds ≠ [])
    (hall : ∀ c ∈ ds, c.isDigit = true) (hrange : (digitsValue ds : Int) < 2 ^ 63) :
    from_chars ds = { ptr := ds.length, ec := Errc.ok, value := some (digitsValue ds : Int) } := by
  cases ds with
  | nil => exact absurd rfl hne
  | cons c rest =>
    have hc : c ≠ '-' := by
      intro h
      have := hall c (List.mem_cons_self _ _)
      rw [h] at this
      revert this
      decide
    have htake := takeWhile_of_all (c :: rest) hall
    have hlow : -2 ^ 63 ≤ (digitsValue (c :: rest) : Int) := by
      have : (0 : Int) ≤ (digitsValue (c :: rest) : Int) := Int.ofNat_nonneg _
      omega
    simp only [from_chars, List.head?_cons, Option.some.injEq, hc, decide_False,
      Bool.false_eq_true, if_false, htake, hlow, hrange, and_self, if_true]
    simp

theorem from_chars_minus_digits (ds : List Char) (hne : ds ≠ [])
    (hall : ∀ c ∈ ds, c.isDigit = true) (hrange : -2 ^ 63 ≤ -(digitsValue ds : Int)) :
    from_chars ('-' :: ds)
      = { ptr := 1 + ds.length, ec := Errc.ok, value := some (-(digitsValue ds : Int)) } := by
  have htake := takeWhile_of_all ds hall
  have hup : -(digitsValue ds : Int) < 2 ^ 63 := by
    have : (0 : Int) ≤ (digitsValue ds : Int) := Int.ofNat_nonneg _
    omega
  simp only [from_chars, List.head?_cons, decide_True, if_true, List.tail_cons, htake, hne,
    if_false, hrange, hup, and_self]

theorem stoi_of_digits (s : String) (hne : s.toList ≠ [])
    (hall : ∀ c ∈ s.toList, c.isDigit = true) (hrange : (digitsValue s.toList : Int) < 2 ^ 63) :
    stoi (some s) = some (digitsValue s.toList : Int) := by
  have hl : s.length = s.toList.length := rfl
  have hlen : ¬ s.toList.length = 0 := fun h0 => hne (List.length_eq_zero.mp h0)
  have hfc := from_chars_digits s.toList hne hall hrange
  simp only [stoi, hfc, hl, and_self, if_true]
  rw [if_neg hlen]

theorem stoi_of_minus_digits (s : String) (ds : List Char) (hs : s.toList = '-' :: ds)
    (hne : ds ≠ []) (hall : ∀ c ∈ ds, c.isDigit = true)
    (hrange : -2 ^ 63 ≤ -(digitsValue ds : Int)) :
    stoi (some s) = some (-(digitsValue ds : Int)) := by
  have hl : s.length = 1 + ds.length := by
    show s.toList.length = _
    rw [hs, List.length_cons, Nat.add_comm]
  have hlen : ¬ 1 + ds.length = 0 := by omega
  have hfc := from_chars_minus_digits ds hne hall hrange
  simp only [stoi, hs, hfc, hl, and_self, if_true]
  rw [if_neg hlen]

theorem stoi_toString (n : Int) (h : -2 ^ 63 ≤ n ∧ n < 2 ^ 63) :
    stoi (some (toString n)) = some n := by
  cases n with
  | ofNat m =>
    obtain ⟨h1, h2, h3⟩ := toString_nat_spec m
    have hs : toString (Int.ofNat m) = toString m := rfl
    rw [hs, stoi_of_digits (toString m) h1 h2 (by rw [h3]; exact h.2), h3]
    rfl
  | negSucc m =>
    obtain ⟨h1, h2, h3⟩ := toString_nat_spec (m + 1)
    have hs : (toString (Int.negSucc m)).toList = '-' :: (toString (m + 1)).toList := rfl
    have hval : -((digitsValue (toString (m + 1)).toList : Nat) : Int) = Int.negSucc m := by
      rw [h3]
      rfl
    rw [stoi_of_minus_digits _ _ hs h1 h2 (by rw [hval]; exact h.1), hval]

theorem parseTriplet_tokens (pre rest : List String) (t : Triplet)
    (ha : isInt64 t.a) (hb : isInt64 t.b) (hc : isInt64 t.c) :
    _parseTriplet (pre ++ (t.tokens ++ rest)) pre.length
      = some { a := t.a, b := t.b, c := t.c } := by
  have h0 : (pre ++ (t.tokens ++ rest))[pre.length]? = some (toString t.a) := by
    rw [List.getElem?_append_right (Nat.le_refl _)]
    simp [Triplet.tokens]
  have h1 : (pre ++ (t.tokens ++ rest))[pre.length + 1]? = some (toString t.b) := by
    rw [List.getElem?_append_right (by omega)]
    simp [Triplet.tokens]
  have h2 : (pre ++ (t.tokens ++ rest))[pre.length + 2]? = some (toString t.c) := by
    rw [List.getElem?_append_right (by omega)]
    simp [Triplet.tokens]
  simp only [_parseTriplet, h0, h1, h2, stoi_toString _ ha, stoi_toString _ hb,
    stoi_toString _ hc]

theorem flatMap_tokens_length (triplets : List Triplet) :
    (triplets.flatMap Triplet.tokens).length = 3 * triplets.length := by
  induction triplets with
  | nil => rfl
  | cons t rest ih =>
    rw [List.flatMap_cons, List.length_append, ih]
    simp only [Triplet.tokens, List.length_cons, List.length_nil]
    omega

theorem parseLoop_render (pre : List String) (rest : List Triplet) (acc : List Triplet)
    (fuel : Nat) (hfuel : rest.length ≤ fuel)
    (hrange : ∀ t ∈ rest, isInt64 t.a ∧ isInt64 t.b ∧ isInt64 t.c) :
    parseLoop (pre ++ rest.flatMap Triplet.tokens) fuel pre.length acc
      = acc ++ rest.map (fun t => { a := t.a, b := t.b, c := t.c }) := by
  induction rest generalizing pre acc fuel with
  | nil =>
    cases fuel with
    | zero => simp [parseLoop]
    | succ fuel => simp [parseLoop]
  | cons t rest ih =>
    cases fuel with
    | zero => simp at hfuel
    | succ fuel =>
      obtain ⟨ha, hb, hc⟩ := hrange t (List.mem_cons_self _ _)
      have hlen : (pre ++ (t :: rest).flatMap Triplet.tokens).length
          = pre.length + 3 * (rest.length + 1) := by
        rw [List.length_append, flatMap_tokens_length, List.length_cons]
      have hparse := parseTriplet_tokens pre (rest.flatMap Triplet.tokens) t ha hb hc
      have hargv : pre ++ (t :: rest).flatMap Triplet.tokens
          = (pre ++ t.tokens) ++ rest.flatMap Triplet.tokens := by
        simp [List.flatMap_cons]
      have hpre : (pre ++ t.tokens).length = pre.length + 3 := by simp [Triplet.tokens]
      have hih := ih (pre ++ t.tokens) (acc ++ [{ a := t.a, b := t.b, c := t.c }]) fuel
        (by simpa using hfuel) (fun u hu => hrange u (List.mem_cons_of_mem _ hu))
      rw [parseLoop]
      have h1 : pre.length < (pre ++ (t :: rest).flatMap Triplet.tokens).length := by omega
      have h2 : ¬ pre.length + 2 ≥ (pre ++ (t :: rest).flatMap Triplet.tokens).length := by
        omega
      simp only [h1, h2, if_true, if_false]
      rw [List.flatMap_cons, hparse]
      simp only
      rw [← List.flatMap_cons, hargv, ← hpre, hih]
      simp

/-- C17, parse round trip: for every non-empty list of triplets with `int64_t`
coefficients, `parse` on the program name followed by the decimal renderings of `a`,
`b`, `c` of each triplet returns, without throwing, the triplets with the same
coefficients in the same order (so of the same length); each carries the default
id. -/
theorem parse_round_trip (program : String) (triplets : List Triplet)
    (hne : triplets ≠ [])
    (hrange : ∀ t ∈ triplets, isInt64 t.a ∧ isInt64 t.b ∧ isInt64 t.c) :
    parse (renderArgv program triplets)
      = Except.ok { triplets := triplets.map (fun t => { a := t.a, b := t.b, c := t.c }) } := by
  have hargv : renderArgv program triplets = [program] ++ triplets.flatMap Triplet.tokens := by
    simp [renderArgv]
  have hlength : (renderArgv program triplets).length = 1 + 3 * triplets.length := by
    rw [hargv, List.length_append, flatMap_tokens_length, List.length_singleton]
  have hpos : 0 < triplets.length := List.length_pos.mpr hne
  have hloop := parseLoop_render [program] triplets [] (renderArgv program triplets).length
    (by omega) hrange
  have hlen : ¬ ((renderArgv program triplets).length : Int) - 1 = 0 := by omega
  unfold parse
  simp only [hlen, if_false]
  rw [hargv] at hloop ⊢
  simp only [List.length_singleton] at hloop
  rw [hloop]
  cases triplets with
  | nil => exact absurd rfl hne
  | cons t rest => simp

/-- The extreme values of `int64_t`, negative values and zero are rendered and
converted back. -/
theorem parse_round_trip_witness :
    ([{ a := -1, b := -2, c := -3, id := 0 },
      { a := 9223372036854775807, b := -9223372036854775808, c := 0, id := 1 }]
        : List Triplet) ≠ []
    ∧ (∀ t ∈ ([{ a := -1, b := -2, c := -3, id := 0 },
          { a := 9223372036854775807, b := -9223372036854775808, c := 0, id := 1 }]
            : List Triplet), isInt64 t.a ∧ isInt64 t.b ∧ isInt64 t.c)
    ∧ renderArgv "app_name"
          [{ a := -1, b := -2, c := -3, id := 0 },
           { a := 9223372036854775807, b := -9223372036854775808, c := 0, id := 1 }]
        = ["app_name", "-1", "-2", "-3", "9223372036854775807", "-9223372036854775808", "0"]
    ∧ parse (renderArgv "app_name"
          [{ a := -1, b := -2, c := -3, id := 0 },
           { a := 9223372036854775807, b := -9223372036854775808, c := 0, id := 1 }])
        = Except.ok { triplets :=
            ([{ a := -1, b := -2, c := -3, id := 0 },
              { a := 9223372036854775807, b := -9223372036854775808, c := 0, id := 1 }]
                : List Triplet).map (fun t => { a := t.a, b := t.b, c := t.c }) } :=
  ⟨by decide, by decide, by decide,
    parse_round_trip "app_name"
      [{ a := -1, b := -2, c := -3, id := 0 },
       { a := 9223372036854775807, b := -9223372036854775808, c := 0, id := 1 }]
      (by decide) (by decide)⟩

/-! ## Arithmetic of `double`: rounding keeps non-zero values non-zero -/

theorem bitLengthAux_zero (fuel : Nat) : bitLengthAux fuel 0 = 0 := by
  cases fuel <;> simp [bitLengthAux]

theorem bitLengthAux_spec (fuel n : Nat) (hfuel : n ≤ fuel) (hn : n ≠ 0) :
    2 ^ (bitLengthAux fuel n - 1) ≤ n ∧ n < 2 ^ bitLengthAux fuel n := by
  induction fuel generalizing n with
  | zero => omega
  | succ fuel ih =>
    simp only [bitLengthAux, hn, if_false, Nat.add_sub_cancel]
    by_cases h0 : n / 2 = 0
    · rw [h0, bitLengthAux_zero]
      simp only [Nat.pow_zero, Nat.zero_add, Nat.pow_one]
      omega
    · obtain ⟨h1, h2⟩ := ih (n / 2) (by omega) h0
      have hk : bitLengthAux fuel (n / 2) ≠ 0 := by
        intro hk
        rw [hk] at h2
        simp only [Nat.pow_zero] at h2
        omega
      obtain ⟨k, hk1⟩ := Nat.exists_eq_succ_of_ne_zero hk
      rw [hk1] at h1 h2 ⊢
      simp only [Nat.succ_eq_add_one, Nat.add_sub_cancel] at h1
      rw [Nat.pow_succ] at h2 ⊢
      rw [Nat.pow_succ]
      omega

theorem bitLength_spec (n : Nat) (hn : n ≠ 0) :
    2 ^ (bitLength n - 1) ≤ n ∧ n < 2 ^ bitLength n :=
  bitLengthAux_spec n n (Nat.le_refl n) hn

theorem roundNearestEven_exact (mantissa : Nat) (exponent : Int) (h : mantissa < 2 ^ 53) :
    roundNearestEven mantissa exponent = (mantissa, exponent) := by
  unfold roundNearestEven
  rw [if_pos h]

theorem roundNearestEven_ne_zero (mantissa : Nat) (exponent : Int) (h : mantissa ≠ 0) :
    (roundNearestEven mantissa exponent).1 ≠ 0 := by
  unfold roundNearestEven
  by_cases hsmall : mantissa < 2 ^ 53
  · simp only [hsmall, if_true]
    exact h
  · simp only [hsmall, if_false]
    have hspec := (bitLength_spec mantissa h).1
    have hle : 2 ^ (bitLength mantissa - 53) ≤ mantissa :=
      Nat.le_trans (Nat.pow_le_pow_right (by decide) (by omega)) hspec
    have hq : 0 < mantissa / 2 ^ (bitLength mantissa - 53) :=
      Nat.div_pos hle (Nat.pow_pos (by decide))
    split <;> omega

theorem roundNearestEven_zero (exponent : Int) : roundNearestEven 0 exponent = (0, exponent) :=
  roundNearestEven_exact 0 exponent (by decide)

namespace Double

theorem ofInt_mantissa_eq_zero (n : Int) : (ofInt n).mantissa = 0 ↔ n = 0 := by
  constructor
  · intro h
    by_contra hn
    exact roundNearestEven_ne_zero n.natAbs 0 (by omega) h
  · intro h
    subst h
    rfl

theorem ofInt_eqZero (n : Int) : (ofInt n).eqZero = decide (n = 0) := by
  simp [eqZero, ofInt_mantissa_eq_zero]

theorem ofInt_ltZero (n : Int) : (ofInt n).ltZero = decide (n < 0) := by
  by_cases h : n < 0
  · have hm : (ofInt n).mantissa ≠ 0 := fun hm => by
      have := (ofInt_mantissa_eq_zero n).mp hm
      omega
    simp [ltZero, ofInt, h] at hm ⊢
    exact hm
  · simp [ltZero, ofInt, h]

theorem mul_mantissa_ne_zero (x y : Double) (hx : x.mantissa ≠ 0) (hy : y.mantissa ≠ 0) :
    (x.mul y).mantissa ≠ 0 :=
  roundNearestEven_ne_zero _ _ (Nat.mul_ne_zero hx hy)

theorem div_of_ne_zero (x y : Double) (hy : y.mantissa ≠ 0) : ∃ q, x.div y = some q := by
  unfold div
  simp only [hy, if_false]
  split
  · exact ⟨_, rfl⟩
  · exact ⟨_, rfl⟩

theorem sqrt_isSome (x : Double) : x.sqrt.isSome = !x.ltZero := by
  unfold sqrt ltZero
  by_cases hm : x.mantissa = 0
  · simp [hm]
  · cases hneg : x.negative <;> simp [hm]

end Double

theorem vertex_of_ne_zero (t : Triplet) (ha : t.a ≠ 0) : ∃ x, vertex t = some x := by
  apply Double.div_of_ne_zero
  apply Double.mul_mantissa_ne_zero
  · decide
  · exact fun h => ha ((Double.ofInt_mantissa_eq_zero t.a).mp h)

/-! ## lib/resolver/quadratic_resolver.h: the branches of `resolve` -/

theorem resolve_linear (t : Triplet) (ha : t.a = 0) (hb : t.b ≠ 0) :
    ∃ x, (Double.ofInt t.c).neg.div (Double.ofInt t.b) = some x
      ∧ resolve t = some (resolveHeader t ++ "(" ++ x.render ++ "), no extremum") := by
  obtain ⟨x, hx⟩ := Double.div_of_ne_zero (Double.ofInt t.c).neg (Double.ofInt t.b)
    (fun h => hb ((Double.ofInt_mantissa_eq_zero t.b).mp h))
  refine ⟨x, hx, ?_⟩
  simp only [resolve, Double.ofInt_eqZero, ha, hb, decide_True, decide_False, if_true,
    Bool.not_false, hx]

theorem resolve_infinite_roots (t : Triplet) (ha : t.a = 0) (hb : t.b = 0) (hc : t.c = 0) :
    resolve t = some (resolveHeader t ++ "infinite roots, no extremum") := by
  simp [resolve, Double.ofInt_eqZero, ha, hb, hc]

theorem resolve_no_solution (t : Triplet) (ha : t.a = 0) (hb : t.b = 0) (hc : t.c ≠ 0) :
    resolve t = some (resolveHeader t ++ "no solution, no extremum") := by
  simp [resolve, Double.ofInt_eqZero, ha, hb, hc]

theorem resolve_no_real_roots (t : Triplet) (ha : t.a ≠ 0)
    (hneg : (discriminant t).ltZero = true) :
    ∃ xMin, vertex t = some xMin
      ∧ resolve t = some (resolveHeader t ++ "no real roots" ++ ", Xmin="
          ++ (if xMin.eqZero then Double.zero else xMin).render) := by
  obtain ⟨xMin, hx⟩ := vertex_of_ne_zero t ha
  refine ⟨xMin, hx, ?_⟩
  simp only [resolve, Double.ofInt_eqZero, ha, decide_False, Bool.false_eq_true, if_false,
    hneg, if_true, hx]

theorem resolve_single_root (t : Triplet) (ha : t.a ≠ 0)
    (hneg : (discriminant t).ltZero = false) (hzero : (discriminant t).eqZero = true) :
    ∃ x, vertex t = some x
      ∧ resolve t = some (resolveHeader t ++ ("(" ++ x.render ++ ")") ++ ", Xmin="
          ++ (if x.eqZero then Double.zero else x).render) := by
  obtain ⟨x, hx⟩ := vertex_of_ne_zero t ha
  refine ⟨x, hx, ?_⟩
  simp only [resolve, Double.ofInt_eqZero, ha, decide_False, Bool.false_eq_true, if_false,
    hneg, hzero, if_true, hx]

theorem resolve_two_roots (t : Triplet) (ha : t.a ≠ 0)
    (hneg : (discriminant t).ltZero = false) (hzero : (discriminant t).eqZero = false) :
    ∃ sqrtD x1 x2 xMin, (discriminant t).sqrt = some sqrtD
      ∧ ((Double.ofInt t.b).neg.add sqrtD).div ((Double.ofInt 2).mul (Double.ofInt t.a)) = some x1
      ∧ ((Double.ofInt t.b).neg.sub sqrtD).div ((Double.ofInt 2).mul (Double.ofInt t.a)) = some x2
      ∧ vertex t = some xMin
      ∧ resolve t = some (resolveHeader t ++ ("(" ++ x1.render ++ ", " ++ x2.render ++ ")")
          ++ ", Xmin=" ++ (if xMin.eqZero then Double.zero else xMin).render) := by
  obtain ⟨xMin, hx⟩ := vertex_of_ne_zero t ha
  have hden : ((Double.ofInt 2).mul (Double.ofInt t.a)).mantissa ≠ 0 :=
    Double.mul_mantissa_ne_zero _ _ (by decide)
      (fun h => ha ((Double.ofInt_mantissa_eq_zero t.a).mp h))
  have hsome : (discriminant t).sqrt.isSome = true := by
    rw [Double.sqrt_isSome, hneg]
    rfl
  obtain ⟨sqrtD, hs⟩ := Option.isSome_iff_exists.mp hsome
  obtain ⟨x1, h1⟩ := Double.div_of_ne_zero ((Double.ofInt t.b).neg.add sqrtD) _ hden
  obtain ⟨x2, h2⟩ := Double.div_of_ne_zero ((Double.ofInt t.b).neg.sub sqrtD) _ hden
  refine ⟨sqrtD, x1, x2, xMin, hs, h1, h2, hx, ?_⟩
  simp only [resolve, Double.ofInt_eqZero, ha, decide_False, Bool.false_eq_true, if_false,
    hneg, hzero, hs, h1, h2, hx]

/-- C18, degenerate equations: for every triplet with `a = 0` the text is the header
`(a, b, c) => ` followed by `(x), no extremum` with `x` the `double` quotient `-c / b`
when `b ≠ 0`, by `infinite roots, no extremum` when `b = 0` and `c = 0`, and by
`no solution, no extremum` when `b = 0` and `c ≠ 0`; nothing follows, so no `Xmin` is
written. -/
theorem degenerate_classification (t : Triplet) (ha : t.a = 0) :
    resolveHeader t
        = "(" ++ toString t.a ++ ", " ++ toString t.b ++ ", " ++ toString t.c ++ ") => "
    ∧ (t.b ≠ 0 → ∃ x, (Double.ofInt t.c).neg.div (Double.ofInt t.b) = some x
        ∧ resolve t = some (resolveHeader t ++ "(" ++ x.render ++ "), no extremum"))
    ∧ (t.b = 0 → t.c = 0 →
        resolve t = some (resolveHeader t ++ "infinite roots, no extremum"))
    ∧ (t.b = 0 → t.c ≠ 0 →
        resolve t = some (resolveHeader t ++ "no solution, no extremum")) :=
  ⟨rfl, resolve_linear t ha, resolve_infinite_roots t ha, resolve_no_solution t ha⟩

/-- The three cases of the test `Resolve_ZeroACoefficientVariations` meet the premise of
C18 and give the texts the test expects. -/
theorem degenerate_classification_witness :
    resolve { a := 0, b := 10, c := -10 } = some "(0, 10, -10) => (1), no extremum"
    ∧ resolve { a := 0, b := 0, c := 0 } = some "(0, 0, 0) => infinite roots, no extremum"
    ∧ resolve { a := 0, b := 0, c := 10 } = some "(0, 0, 10) => no solution, no extremum" := by
  refine ⟨?_, ?_, ?_⟩
  · obtain ⟨x, hx, h⟩ :=
      (degenerate_classification { a := 0, b := 10, c := -10 } rfl).2.1 (by decide)
    have hval : x = ⟨false, 2 ^ 52, -52⟩ := by
      have h1 : (Double.ofInt (-10)).neg.div (Double.ofInt 10) = some ⟨false, 2 ^ 52, -52⟩ := by
        decide
      exact Option.some.inj (hx.symm.trans h1)
    rw [h, hval]
    decide
  · rw [(degenerate_classification { a := 0, b := 0, c := 0 } rfl).2.2.1 rfl rfl]
    decide
  · rw [(degenerate_classification { a := 0, b := 0, c := 10 } rfl).2.2.2 rfl (by decide)]
    decide

namespace Double

theorem isExactly_ofInt (n : Int) (h : n.natAbs < 2 ^ 53) : (ofInt n).IsExactly n := by
  unfold IsExactly ofInt
  rw [roundNearestEven_exact _ _ h]
  exact ⟨rfl, rfl, fun _ => rfl⟩

theorem isExactly_neg {x : Double} {n : Int} (hx : x.IsExactly n) : x.neg.IsExactly (-n) := by
  obtain ⟨h1, h2, h3⟩ := hx
  refine ⟨h1, by simpa [neg] using h2, ?_⟩
  intro hn
  have hn0 : n ≠ 0 := by omega
  simp only [neg, h3 hn0]
  by_cases hlt : n < 0
  · have : ¬ -n < 0 := by omega
    simp [hlt, this]
  · have : -n < 0 := by omega
    simp [hlt, this]

theorem scaled_of_isExactly {x : Double} {n : Int} (hx : x.IsExactly n) : x.scaled 0 = n := by
  obtain ⟨h1, h2, h3⟩ := hx
  unfold scaled
  rw [h1, h2]
  simp only [Int.sub_self, Int.toNat_zero, pow_zero, mul_one]
  by_cases hn : n = 0
  · subst hn
    simp
  · rw [h3 hn]
    by_cases hlt : n < 0
    · simp only [hlt, decide_True, if_true]
      omega
    · simp only [hlt, decide_False, Bool.false_eq_true, if_false]
      omega

theorem isExactly_add {x y : Double} {m n : Int} (hx : x.IsExactly m) (hy : y.IsExactly n)
    (h : (m + n).natAbs < 2 ^ 53) : (x.add y).IsExactly (m + n) := by
  have hsx := scaled_of_isExactly hx
  have hsy := scaled_of_isExactly hy
  unfold add
  rw [hx.1, hy.1]
  simp only [min_self, hsx, hsy]
  by_cases hsum : m + n = 0
  · simp only [hsum, if_true]
    exact ⟨rfl, rfl, fun h0 => absurd rfl h0⟩
  · simp only [hsum, if_false]
    rw [roundNearestEven_exact _ _ h]
    exact ⟨rfl, rfl, fun _ => rfl⟩

theorem isExactly_sub {x y : Double} {m n : Int} (hx : x.IsExactly m) (hy : y.IsExactly n)
    (h : (m - n).natAbs < 2 ^ 53) : (x.sub y).IsExactly (m - n) := by
  have := isExactly_add hx (isExactly_neg hy) (by rwa [← Int.sub_eq_add_neg])
  rwa [← Int.sub_eq_add_neg] at this

theorem isExactly_mul {x y : Double} {m n : Int} (hx : x.IsExactly m) (hy : y.IsExactly n)
    (h : m.natAbs * n.natAbs < 2 ^ 53) : (x.mul y).IsExactly (m * n) := by
  obtain ⟨hx1, hx2, hx3⟩ := hx
  obtain ⟨hy1, hy2, hy3⟩ := hy
  unfold mul
  rw [hx1, hy1, hx2, hy2, roundNearestEven_exact _ _ h]
  refine ⟨by simp, by simp [Int.natAbs_mul], ?_⟩
  intro hmn
  have hm : m ≠ 0 := fun h0 => hmn (by rw [h0, Int.zero_mul])
  have hn : n ≠ 0 := fun h0 => hmn (by rw [h0, Int.mul_zero])
  simp only [hx3 hm, hy3 hn]
  rcases Int.lt_or_gt_of_ne hm with hm1 | hm1 <;> rcases Int.lt_or_gt_of_ne hn with hn1 | hn1
  · have : ¬ m * n < 0 := not_lt.mpr (le_of_lt (mul_pos_of_neg_of_neg hm1 hn1))
    simp [hm1, hn1, this]
  · have h1 : m * n < 0 := mul_neg_of_neg_of_pos hm1 hn1
    have h2 : ¬ n < 0 := by omega
    simp [hm1, h2, h1]
  · have h1 : m * n < 0 := mul_neg_of_pos_of_neg hm1 hn1
    have h2 : ¬ m < 0 := by omega
    simp [hn1, h2, h1]
  · have : ¬ m * n < 0 := not_lt.mpr (le_of_lt (mul_pos hm1 hn1))
    have h2 : ¬ m < 0 := by omega
    have h3 : ¬ n < 0 := by omega
    simp [h2, h3, this]

theorem ltZero_of_isExactly {x : Double} {n : Int} (hx : x.IsExactly n) :
    x.ltZero = decide (n < 0) := by
  obtain ⟨_, h2, h3⟩ := hx
  unfold ltZero
  by_cases hn : n = 0
  · subst hn
    simp [h2]
  · have hm : x.mantissa ≠ 0 := by omega
    simp [h3 hn, hm]

theorem eqZero_of_isExactly {x : Double} {n : Int} (hx : x.IsExactly n) :
    x.eqZero = decide (n = 0) := by
  obtain ⟨_, h2, _⟩ := hx
  unfold eqZero
  rw [h2]
  simp

end Double

theorem discriminant_exact (t : Triplet) (ha : t.a.natAbs ≤ 2 ^ 25) (hb : t.b.natAbs ≤ 2 ^ 25)
    (hc : t.c.natAbs ≤ 2 ^ 25) :
    (discriminant t).IsExactly (t.b * t.b - 4 * t.a * t.c) := by
  have hbb : t.b.natAbs * t.b.natAbs ≤ 2 ^ 25 * 2 ^ 25 := Nat.mul_le_mul hb hb
  have h4a : (4 * t.a).natAbs = 4 * t.a.natAbs := by
    rw [Int.natAbs_mul]
    rfl
  have h4ac : (4 * t.a).natAbs * t.c.natAbs ≤ (4 * 2 ^ 25) * 2 ^ 25 := by
    rw [h4a]
    exact Nat.mul_le_mul (by omega) hc
  have hA := Double.isExactly_ofInt t.a (by omega)
  have hB := Double.isExactly_ofInt t.b (by omega)
  have hC := Double.isExactly_ofInt t.c (by omega)
  have h4 := Double.isExactly_ofInt 4 (by decide)
  have hBB := Double.isExactly_mul hB hB (by omega)
  have h4A := Double.isExactly_mul h4 hA (by
    have : (4 : Int).natAbs = 4 := rfl
    rw [this]
    omega)
  have h4AC := Double.isExactly_mul h4A hC (by omega)
  refine Double.isExactly_sub hBB h4AC ?_
  have h1 := Int.natAbs_sub_le (t.b * t.b) (4 * t.a * t.c)
  rw [Int.natAbs_mul t.b t.b, Int.natAbs_mul (4 * t.a) t.c] at h1
  omega

/-! ## lib/resolver/quadratic_resolver.h: the quadratic case -/

set_option maxRecDepth 100000 in
/-- The expectations of the tests `Resolve_ZeroACoefficientVariations`,
`Resolve_NoRealRoots`, `Resolve_SingleRoot`, `Resolve_TwoRoots` and of the reference
table of `Resolve_1MSetOfPredefinedCases` hold of `resolve` as embedded here. -/
theorem resolve_meets_the_unit_tests :
    resolve { a := 0, b := 10, c := -10 } = some "(0, 10, -10) => (1), no extremum"
    ∧ resolve { a := 0, b := 0, c := 0 } = some "(0, 0, 0) => infinite roots, no extremum"
    ∧ resolve { a := 0, b := 0, c := 10 } = some "(0, 0, 10) => no solution, no extremum"
    ∧ resolve { a := 0, b := 0, c := 5 } = some "(0, 0, 5) => no solution, no extremum"
    ∧ resolve { a := 0, b := 5, c := -10 } = some "(0, 5, -10) => (2), no extremum"
    ∧ resolve { a := 1, b := 0, c := 1 } = some "(1, 0, 1) => no real roots, Xmin=0"
    ∧ resolve { a := 1, b := 2, c := 1 } = some "(1, 2, 1) => (-1), Xmin=-1"
    ∧ resolve { a := 1, b := -2, c := -3 } = some "(1, -2, -3) => (3, -1), Xmin=1"
    ∧ resolve { a := 1, b := -4, c := 3 } = some "(1, -4, 3) => (3, 1), Xmin=2"
    ∧ resolve { a := 2, b := -6, c := -8 } = some "(2, -6, -8) => (4, -1), Xmin=1.5"
    ∧ resolve { a := 2, b := 8, c := 8 } = some "(2, 8, 8) => (-2), Xmin=-2" := by
  refine ⟨?_, ?_, ?_, ?_, ?_, ?_, ?_, ?_, ?_, ?_, ?_⟩ <;> decide

set_option maxRecDepth 100000 in
/-- C19, as stated, fails: for `a = 1`, `b = 2^28`, `c = 2^54 + 1` the exact integer
discriminant is `-4`, negative, yet `resolve` reports a single root.  The conversion of
`c` to `double` rounds it to `2^54`, after which `b * b` and `4 * a * c` are both
`2^56` and `D` is zero. -/
theorem exact_discriminant_is_not_what_classifies :
    (268435456 : Int) * 268435456 - 4 * 1 * 18014398509481985 = -4
    ∧ discriminant { a := 1, b := 268435456, c := 18014398509481985 } = Double.zero
    ∧ resolve { a := 1, b := 268435456, c := 18014398509481985 }
        = some "(1, 268435456, 18014398509481985) => (-1.34218e+08), Xmin=-1.34218e+08" := by
  refine ⟨by decide, by decide, by decide⟩

/-- C19, amended: for every triplet with `a ≠ 0`, `resolve` classifies by the sign of
`D`, the discriminant as computed in `double` arithmetic from the converted
coefficients: `no real roots` when `D < 0`; the single root `-b / (2a)` when `D = 0`;
the two roots `(-b + sqrt(D)) / (2a)` and `(-b - sqrt(D)) / (2a)` when `D > 0`.  In all
three cases the text ends with `, Xmin=` followed by `-b / (2a)`, a zero being written
as `0`.  When `|a|`, `|b|`, `|c|` are at most `2^25`, `D` is the exact integer
discriminant, so its sign is that of `b*b - 4*a*c`. -/
theorem quadratic_classification (t : Triplet) (ha : t.a ≠ 0) :
    ((discriminant t).ltZero = true →
      ∃ xMin, vertex t = some xMin
        ∧ resolve t = some (resolveHeader t ++ "no real roots" ++ ", Xmin="
            ++ (if xMin.eqZero then Double.zero else xMin).render))
    ∧ ((discriminant t).ltZero = false → (discriminant t).eqZero = true →
      ∃ x, vertex t = some x
        ∧ resolve t = some (resolveHeader t ++ ("(" ++ x.render ++ ")") ++ ", Xmin="
            ++ (if x.eqZero then Double.zero else x).render))
    ∧ ((discriminant t).ltZero = false → (discriminant t).eqZero = false →
      ∃ sqrtD x1 x2 xMin, (discriminant t).sqrt = some sqrtD
        ∧ ((Double.ofInt t.b).neg.add sqrtD).div ((Double.ofInt 2).mul (Double.ofInt t.a))
            = some x1
        ∧ ((Double.ofInt t.b).neg.sub sqrtD).div ((Double.ofInt 2).mul (Double.ofInt t.a))
            = some x2
        ∧ vertex t = some xMin
        ∧ resolve t = some (resolveHeader t ++ ("(" ++ x1.render ++ ", " ++ x2.render ++ ")")
            ++ ", Xmin=" ++ (if xMin.eqZero then Double.zero else xMin).render))
    ∧ (t.a.natAbs ≤ 2 ^ 25 → t.b.natAbs ≤ 2 ^ 25 → t.c.natAbs ≤ 2 ^ 25 →
      (discriminant t).IsExactly (t.b * t.b - 4 * t.a * t.c)
        ∧ (discriminant t).ltZero = decide (t.b * t.b - 4 * t.a * t.c < 0)
        ∧ (discriminant t).eqZero = decide (t.b * t.b - 4 * t.a * t.c = 0)) := by
  refine ⟨resolve_no_real_roots t ha, resolve_single_root t ha, resolve_two_roots t ha, ?_⟩
  intro h1 h2 h3
  have h := discriminant_exact t h1 h2 h3
  exact ⟨h, Double.ltZero_of_isExactly h, Double.eqZero_of_isExactly h⟩

/-- The triplet `(1, -2, -3)` of the test `Resolve_TwoRoots` meets the premise of the
amended C19: its coefficients are small, `D` is exactly 16 and two roots are
reported. -/
theorem quadratic_classification_witness :
    (({ a := 1, b := -2, c := -3 } : Triplet).a ≠ 0)
    ∧ (discriminant { a := 1, b := -2, c := -3 }).IsExactly 16
    ∧ (discriminant { a := 1, b := -2, c := -3 }).ltZero = false
    ∧ (discriminant { a := 1, b := -2, c := -3 }).eqZero = false :=
  have h := (quadratic_classification { a := 1, b := -2, c := -3 } (by decide)).2.2.2
    (by decide) (by decide) (by decide)
  ⟨by decide, h.1, h.2.1, h.2.2⟩

/-! ## Arithmetic of `double`: the integer square root -/

theorem isqrtBits_spec (m k acc : Nat) (hlow : acc * acc ≤ m)
    (hhigh : m < (acc + 2 ^ k) * (acc + 2 ^ k)) :
    Double.isqrtBits m k acc * Double.isqrtBits m k acc ≤ m
      ∧ m < (Double.isqrtBits m k acc + 1) * (Double.isqrtBits m k acc + 1) := by
  induction k generalizing acc with
  | zero => simpa [Double.isqrtBits] using ⟨hlow, hhigh⟩
  | succ k ih =>
    simp only [Double.isqrtBits]
    by_cases hc : (acc + 2 ^ k) * (acc + 2 ^ k) ≤ m
    · simp only [hc, if_true]
      refine ih (acc + 2 ^ k) hc ?_
      have : acc + 2 ^ k + 2 ^ k = acc + 2 ^ (k + 1) := by
        rw [Nat.pow_succ]
        omega
      rw [this]
      exact hhigh
    · simp only [hc, if_false]
      exact ih acc hlow (Nat.lt_of_not_le hc)

/-- The bit-by-bit square root is the integer square root. -/
theorem isqrt_eq_sqrt (m : Nat) : Double.isqrt m = Nat.sqrt m := by
  have hspec : Double.isqrt m * Double.isqrt m ≤ m
      ∧ m < (Double.isqrt m + 1) * (Double.isqrt m + 1) := by
    unfold Double.isqrt
    refine isqrtBits_spec m _ 0 (Nat.zero_le _) ?_
    by_cases hm : m = 0
    · subst hm
      simp
    · have h1 := (bitLength_spec m hm).2
      have h2 : 2 ^ bitLength m ≤ 2 ^ (bitLength m / 2 + 1) * 2 ^ (bitLength m / 2 + 1) := by
        rw [← Nat.pow_add]
        exact Nat.pow_le_pow_right (by decide) (by omega)
      simp only [Nat.zero_add]
      omega
  exact Nat.eq_sqrt.mpr hspec

/-! ## Negative zero in the text of `resolve` -/

/-- For `b = 0` and `a ≠ 0` the expression `-b / (2a)` is a zero, and the text written
after `Xmin=` is `0`: the normalisation `xMin == 0.0 ? 0.0 : xMin` replaces a negative
zero by `0.0`. -/
theorem xmin_zero_is_rendered_plain (t : Triplet) (ha : t.a ≠ 0) (hb : t.b = 0) :
    ∃ xMin, vertex t = some xMin ∧ xMin.eqZero = true
      ∧ (if xMin.eqZero then Double.zero else xMin).render = "0" := by
  have hden : ((Double.ofInt 2).mul (Double.ofInt t.a)).mantissa ≠ 0 :=
    Double.mul_mantissa_ne_zero _ _ (by decide)
      (fun h => ha ((Double.ofInt_mantissa_eq_zero t.a).mp h))
  have hnum : (Double.ofInt t.b).neg.mantissa = 0 := by
    rw [hb]
    rfl
  refine ⟨⟨xor (Double.ofInt t.b).neg.negative
      ((Double.ofInt 2).mul (Double.ofInt t.a)).negative, 0, 0⟩, ?_, rfl, ?_⟩
  · simp only [vertex, Double.div, hden, hnum, if_false, if_true]
  · simp only [Double.eqZero, decide_True, if_true]
    decide

set_option maxRecDepth 100000 in
/-- C26: `resolve` does write `-0`.  Only `xMin` is normalised; the root of the linear
case, the single root and the two roots are written as computed.  For `(0, 5, 0)` the
root is `-0.0 / 5.0`, for `(1, 0, 0)` it is `-0.0 / 2.0`, and for `(-1, 1, 0)` the first
root is `0.0 / -2.0`: each is a negative zero and is written `-0`. -/
theorem negative_zero_is_shown_for_roots :
    resolve { a := 0, b := 5, c := 0 } = some "(0, 5, 0) => (-0), no extremum"
    ∧ resolve { a := 1, b := 0, c := 0 } = some "(1, 0, 0) => (-0), Xmin=0"
    ∧ resolve { a := -1, b := 1, c := 0 } = some "(-1, 1, 0) => (-0, 1), Xmin=0.5" := by
  refine ⟨by decide, by decide, by decide⟩

/-! ## Consumers blocked when `shutdown` is called -/

section BlockedConsumers

open BlockingQueue

variable {α : Type}

theorem applyOp_stopped_empty (op : QueueOp α) (h : op.isPush = false) :
    applyOp (⟨[], true⟩ : BlockingQueue α) op = ⟨[], true⟩ := by
  cases op with
  | push item => cases h
  | shutdown => rfl
  | pop out => simp [applyOp, waitPop_nil_stopped]

theorem applyOps_stopped_empty (ops : List (QueueOp α))
    (h : ∀ op ∈ ops, op.isPush = false) :
    applyOps (⟨[], true⟩ : BlockingQueue α) ops = ⟨[], true⟩ := by
  induction ops with
  | nil => rfl
  | cons op rest ih =>
    simp only [applyOps, List.foldl_cons]
    rw [applyOp_stopped_empty op (h op (List.mem_cons_self _ _))]
    exact ih (fun o ho => h o (List.mem_cons_of_mem _ ho))

/-- C24, as stated, fails: a consumer is blocked in `waitPop` on the fresh queue,
`shutdown` is called, and before the consumer runs again another thread pushes 7 (a
push after shutdown is accepted); the blocked call then returns `true` with 7. -/
theorem blocked_pop_may_return_true_after_shutdown :
    waitPop (create : BlockingQueue Nat) 0 = none
    ∧ waitPop (applyOps (shutdown (create : BlockingQueue Nat)) [QueueOp.push 7]) 0
        = some (true, 7, ⟨[], true⟩) := by
  decide

/-- C24, amended: a consumer blocked in `waitPop` (empty queue, flag not set) at the
moment `shutdown` is called gets `false` from that call, with its variable untouched,
provided no thread pushes between the `shutdown` and the completion of the call;
calls of `waitPop` and `shutdown` by other threads in between change nothing. -/
theorem blocked_pop_returns_false_after_shutdown (out : α) (later : List (QueueOp α))
    (hnopush : ∀ op ∈ later, op.isPush = false) :
    waitPop (⟨[], false⟩ : BlockingQueue α) out = none
    ∧ waitPop (applyOps (shutdown (⟨[], false⟩ : BlockingQueue α)) later) out
        = some (false, out, ⟨[], true⟩) := by
  refine ⟨waitPop_nil_running out, ?_⟩
  have h : shutdown (⟨[], false⟩ : BlockingQueue α) = ⟨[], true⟩ := rfl
  rw [h, applyOps_stopped_empty later hnopush, waitPop_nil_stopped]

/-- Two consumers are blocked; after `shutdown` the other one completes its call first,
and `shutdown` is called once more: the first consumer still gets `false`. -/
theorem blocked_pop_returns_false_after_shutdown_witness :
    (∀ op ∈ ([QueueOp.pop 5, QueueOp.shutdown] : List (QueueOp Nat)), op.isPush = false)
    ∧ waitPop (⟨[], false⟩ : BlockingQueue Nat) 0 = none
    ∧ waitPop (applyOps (shutdown (⟨[], false⟩ : BlockingQueue Nat))
          [QueueOp.pop 5, QueueOp.shutdown]) 0
        = some (false, 0, ⟨[], true⟩) :=
  ⟨by decide,
    blocked_pop_returns_false_after_shutdown 0 [QueueOp.pop 5, QueueOp.shutdown] (by decide)⟩

end BlockedConsumers

/-! ## lib/cli/cli_parser.cpp: the tokens `_parseTriplet` accepts -/

theorem takeWhile_all_of_length (p : Char → Bool) (l : List Char)
    (h : (l.takeWhile p).length = l.length) : l.takeWhile p = l ∧ ∀ c ∈ l, p c = true := by
  induction l with
  | nil => exact ⟨rfl, fun c hc => by cases hc⟩
  | cons a rest ih =>
    rw [List.takeWhile_cons] at h ⊢
    by_cases ha : p a = true
    · simp only [ha, if_true, List.length_cons, Nat.add_right_cancel_iff] at h ⊢
      obtain ⟨h1, h2⟩ := ih h
      refine ⟨by rw [h1], ?_⟩
      intro c hc
      rcases List.mem_cons.mp hc with hc | hc
      · rw [hc]
        exact ha
      · exact h2 c hc
    · simp [ha] at h

theorem from_chars_minus (body : List Char) :
    from_chars ('-' :: body) =
      if body.takeWhile Char.isDigit = [] then
        { ptr := 0, ec := Errc.invalid_argument, value := none }
      else if -2 ^ 63 ≤ -(digitsValue (body.takeWhile Char.isDigit) : Int)
          ∧ -(digitsValue (body.takeWhile Char.isDigit) : Int) < 2 ^ 63 then
        { ptr := 1 + (body.takeWhile Char.isDigit).length, ec := Errc.ok,
          value := some (-(digitsValue (body.takeWhile Char.isDigit) : Int)) }
      else
        { ptr := 1 + (body.takeWhile Char.isDigit).length, ec := Errc.result_out_of_range,
          value := none } := by
  simp only [from_chars, List.head?_cons, decide_True, if_true, List.tail_cons]

theorem from_chars_plain (chars : List Char) (h : chars.head? ≠ some '-') :
    from_chars chars =
      if chars.takeWhile Char.isDigit = [] then
        { ptr := 0, ec := Errc.invalid_argument, value := none }
      else if -2 ^ 63 ≤ (digitsValue (chars.takeWhile Char.isDigit) : Int)
          ∧ (digitsValue (chars.takeWhile Char.isDigit) : Int) < 2 ^ 63 then
        { ptr := 0 + (chars.takeWhile Char.isDigit).length, ec := Errc.ok,
          value := some (digitsValue (chars.takeWhile Char.isDigit) : Int) }
      else
        { ptr := 0 + (chars.takeWhile Char.isDigit).length, ec := Errc.result_out_of_range,
          value := none } := by
  simp only [from_chars, h, decide_False, Bool.false_eq_true, if_false]

theorem stoi_some_inv (s : String) (v : Int) (h : stoi (some s) = some v) :
    IsCoefficientToken s v := by
  have hl : s.length = s.toList.length := rfl
  simp only [stoi] at h
  split at h
  · cases h
  · split at h
    · rename_i hok
      obtain ⟨hec, hptr⟩ := hok
      rw [hl] at hptr
      by_cases hneg : s.toList.head? = some '-'
      · obtain ⟨body, hbody⟩ : ∃ body, s.toList = '-' :: body := by
          cases hs : s.toList with
          | nil => rw [hs] at hneg; cases hneg
          | cons c rest =>
            rw [hs] at hneg
            simp only [List.head?_cons, Option.some.injEq] at hneg
            exact ⟨rest, by rw [hneg]⟩
        rw [hbody, from_chars_minus] at h hec hptr
        split at h
        · cases h
        · rename_i hne
          split at h
          · rename_i hrange
            obtain ⟨h1, h2⟩ := takeWhile_all_of_length Char.isDigit body (by
              simp only [hne, hrange, if_false, and_self, if_true, List.length_cons] at hptr
              omega)
            rw [h1] at h hne hrange
            simp only [Option.some.injEq] at h
            exact ⟨body, hne, h2, Or.inr ⟨hbody, h.symm⟩, h ▸ hrange⟩
          · cases h
      · rw [from_chars_plain _ hneg] at h hec hptr
        split at h
        · cases h
        · rename_i hne
          split at h
          · rename_i hrange
            obtain ⟨h1, h2⟩ := takeWhile_all_of_length Char.isDigit s.toList (by
              simp only [hne, hrange, if_false, and_self, if_true] at hptr
              omega)
            rw [h1] at h hne hrange
            simp only [Option.some.injEq] at h
            exact ⟨s.toList, hne, h2, Or.inl ⟨rfl, h.symm⟩, h ▸ hrange⟩
          · cases h
    · cases h

theorem stoi_of_token (s : String) (v : Int) (h : IsCoefficientToken s v) :
    stoi (some s) = some v := by
  obtain ⟨digits, hne, hall, hform, hrange⟩ := h
  rcases hform with ⟨hs, hv⟩ | ⟨hs, hv⟩
  · have := stoi_of_digits s (by rw [hs]; exact hne) (by rw [hs]; exact hall)
      (by rw [hs, ← hv]; exact hrange.2)
    rw [this, hs, hv]
  · have := stoi_of_minus_digits s digits hs hne hall (by rw [← hv]; exact hrange.1)
    rw [this, hv]

theorem parseTriplet_some_iff (argv : List String) (start : Nat) (t : Triplet) :
    _parseTriplet argv start = some t ↔
      ∃ a b c, stoi argv[start]? = some a ∧ stoi argv[start + 1]? = some b
        ∧ stoi argv[start + 2]? = some c ∧ t = { a := a, b := b, c := c } := by
  unfold _parseTriplet
  cases ha : stoi argv[start]? with
  | none => simp
  | some a =>
    cases hb : stoi argv[start + 1]? with
    | none => simp
    | some b =>
      cases hc : stoi argv[start + 2]? with
      | none => simp
      | some c =>
        simp only [Option.some.injEq, exists_and_left, exists_eq_left']
        constructor
        · intro h
          exact h.symm
        · intro h
          exact h.symm

/-- C25, token grammar: the conversion `_parseTriplet` applies to each of its three
tokens succeeds, with value `v`, exactly when the whole token is an optional leading
`-` followed by one or more decimal digits writing a value `v` that fits in a signed
64-bit integer; `_parseTriplet` returns a triplet exactly when all three tokens
convert, so one rejected token rejects the triplet.  The empty token, a leading `+`,
leading or trailing whitespace, a decimal point, a trailing letter, a lone `-` and
magnitudes one beyond either end of the range are rejected; both ends of the range are
accepted. -/
theorem token_grammar :
    (∀ (token : String) (v : Int), stoi (some token) = some v ↔ IsCoefficientToken token v)
    ∧ (∀ (argv : List String) (start : Nat) (t : Triplet),
        _parseTriplet argv start = some t ↔
          ∃ a b c, stoi argv[start]? = some a ∧ stoi argv[start + 1]? = some b
            ∧ stoi argv[start + 2]? = some c ∧ t = { a := a, b := b, c := c })
    ∧ stoi (some "") = none ∧ stoi (some "+1") = none ∧ stoi (some " 1") = none
    ∧ stoi (some "1 ") = none ∧ stoi (some "1.5") = none ∧ stoi (some "12a") = none
    ∧ stoi (some "-") = none ∧ stoi (some "9223372036854775808") = none
    ∧ stoi (some "-9223372036854775809") = none
    ∧ stoi (some "9223372036854775807") = some 9223372036854775807
    ∧ stoi (some "-9223372036854775808") = some (-9223372036854775808)
    ∧ _parseTriplet ["app_name", "1", "b", "2"] 1 = none := by
  refine ⟨fun token v => ⟨stoi_some_inv token v, stoi_of_token token v⟩,
    parseTriplet_some_iff, ?_, ?_, ?_, ?_, ?_, ?_, ?_, ?_, ?_, ?_, ?_, ?_⟩ <;> decide

/-! ## One worker on its own: the steps of an iteration -/

theorem set_of_getElem? {β : Type} {l : List β} {w : Nat} {a : β} (h : l[w]? = some a) :
    l.set w a = l := by
  induction l generalizing w with
  | nil => rfl
  | cons b rest ih =>
    cases w with
    | zero =>
      simp only [List.getElem?_cons_zero, Option.some.injEq] at h
      rw [h]
      rfl
    | succ w =>
      simp only [List.getElem?_cons_succ] at h
      simp only [List.set_cons_succ, ih h]

theorem lt_length_of_getElem? {β : Type} {l : List β} {w : Nat} {a : β}
    (h : l[w]? = some a) : w < l.length := by
  by_contra hlt
  rw [List.getElem?_eq_none (by omega)] at h
  cases h

theorem resolverStep_pop (resolve : Triplet → String) (s : Pipeline) (w : Nat)
    (item : Triplet) (rest : List Triplet)
    (hpc : s.resolveConsumers[w]? = some ResolverPc.atWaitPop)
    (hq : s.input.m_queue = item :: rest) :
    s.resolverStep resolve w
      = some { s with input := ⟨rest, s.input.m_stopped⟩,
                      resolveConsumers := s.resolveConsumers.set w (ResolverPc.atStore item),
                      history := Event.popped w item :: s.history } := by
  have hpop : s.input.waitPop {} = some (true, item, ⟨rest, s.input.m_stopped⟩) := by
    have := BlockingQueue.waitPop_cons item rest s.input.m_stopped ({} : Triplet)
    rw [← hq] at this
    exact this
  simp only [Pipeline.resolverStep, hpc, hpop]

theorem resolverStep_store (resolve : Triplet → String) (s : Pipeline) (w : Nat)
    (item : Triplet) (hpc : s.resolveConsumers[w]? = some (ResolverPc.atStore item))
    (hid : 0 ≤ item.id ∧ item.id < s.output.length) :
    s.resolverStep resolve w
      = some { s with output := s.output.set item.id.toNat { result := resolve item },
                      resolveConsumers := s.resolveConsumers.set w ResolverPc.atWaitPop,
                      history := Event.stored w item.id :: s.history } := by
  have hst : storeResult s.output item.id (resolve item)
      = some (s.output.set item.id.toNat { result := resolve item }) := by
    simp only [storeResult, hid, and_self, if_true]
  simp only [Pipeline.resolverStep, hpc, hst]

theorem resolverStep_drained (resolve : Triplet → String) (s : Pipeline) (w : Nat)
    (hpc : s.resolveConsumers[w]? = some ResolverPc.atWaitPop)
    (hq : s.input = ⟨[], true⟩) :
    s.resolverStep resolve w
      = some { s with resolveConsumers := s.resolveConsumers.set w ResolverPc.exited,
                      history := Event.drained w :: s.history } := by
  have hpop : s.input.waitPop {} = some (false, {}, s.input) := by
    rw [hq]
    exact BlockingQueue.waitPop_nil_stopped _
  simp only [Pipeline.resolverStep, hpc, hpop]

/-- C22, frame of one worker iteration: from a state in which worker `w` is at the top
of its loop and the queue holds `item :: rest`, with `item.id` an index of the buffer,
the iteration is the two steps of `w`: the `waitPop` that removes `item` from the queue
and touches nothing else, and the store that replaces slot `item.id` by
`resolve item`.  After it the buffer has its old length, slot `item.id` holds
`resolve item`, every other slot is as before, the queue is as the `waitPop` left it,
the jobs still to push and the other workers are untouched, and the history has gained
exactly one dequeue and one store. -/
theorem worker_iteration_frame (resolve : Triplet → String) (s : Pipeline) (w : Nat)
    (item : Triplet) (rest : List Triplet)
    (hpc : s.resolveConsumers[w]? = some ResolverPc.atWaitPop)
    (hq : s.input.m_queue = item :: rest)
    (hid : 0 ≤ item.id ∧ item.id < s.output.length) :
    ∃ s1 s2, s.resolverStep resolve w = some s1 ∧ s1.resolverStep resolve w = some s2
      ∧ s1.input = ⟨rest, s.input.m_stopped⟩ ∧ s1.output = s.output
      ∧ s2.input = s1.input
      ∧ s2.output = s.output.set item.id.toNat { result := resolve item }
      ∧ s2.output.length = s.output.length
      ∧ s2.output[item.id.toNat]? = some { result := resolve item }
      ∧ (∀ j : Nat, j ≠ item.id.toNat → s2.output[j]? = s.output[j]?)
      ∧ s2.toPush = s.toPush
      ∧ s2.resolveConsumers = s.resolveConsumers
      ∧ s2.history = Event.stored w item.id :: Event.popped w item :: s.history := by
  have hw := lt_length_of_getElem? hpc
  have h1 := resolverStep_pop resolve s w item rest hpc hq
  have hpc1 : (s.resolveConsumers.set w (ResolverPc.atStore item))[w]?
      = some (ResolverPc.atStore item) := List.getElem?_set_self hw
  have h2 := resolverStep_store resolve
    { s with input := ⟨rest, s.input.m_stopped⟩,
             resolveConsumers := s.resolveConsumers.set w (ResolverPc.atStore item),
             history := Event.popped w item :: s.history } w item hpc1 hid
  have hlt : item.id.toNat < s.output.length := by omega
  refine ⟨_, _, h1, h2, rfl, rfl, rfl, rfl, ?_, ?_, ?_, rfl, ?_, rfl⟩
  · simp
  · exact List.getElem?_set_self hlt
  · intro j hj
    exact List.getElem?_set_ne (fun h => hj h.symm)
  · simp only [List.set_set]
    exact set_of_getElem? hpc

/-- A worker at the top of its loop, the job with id 1 at the head of the queue and a
two-slot buffer meet the premises of C22: slot 1 is written, slot 0 is not. -/
theorem worker_iteration_frame_witness :
    ∃ s1 s2,
      Pipeline.resolverStep sampleResolve
          { input := ⟨[{ a := 1, b := -3, c := 2, id := 1 }], false⟩
            output := [{ result := "kept" }, { result := "" }]
            toPush := [{ a := 1, b := 2, c := 1, id := 0 }]
            resolveConsumers := [ResolverPc.atWaitPop]
            history := [] } 0 = some s1
      ∧ s1.resolverStep sampleResolve 0 = some s2
      ∧ s2.output = [{ result := "kept" }, { result := "-3" }]
      ∧ s2.input = ⟨[], false⟩ :=
  have h := worker_iteration_frame sampleResolve
    { input := ⟨[{ a := 1, b := -3, c := 2, id := 1 }], false⟩
      output := [{ result := "kept" }, { result := "" }]
      toPush := [{ a := 1, b := 2, c := 1, id := 0 }]
      resolveConsumers := [ResolverPc.atWaitPop]
      history := [] } 0 { a := 1, b := -3, c := 2, id := 1 } [] rfl rfl (by decide)
  match h with
  | ⟨s1, s2, h1, h2, h3, _, h5, h6, _⟩ =>
    ⟨s1, s2, h1, h2, by rw [h6]; decide, by rw [h5, h3]⟩

/-! ## One worker on its own: draining a stopped queue -/

/-- C23, worker loop termination: from a state whose queue is stopped and holds `jobs`
(ids within the buffer), with worker `w` at the top of its loop and no other thread
stepping, `2 * jobs.length + 1` steps of `w` are enabled one after the other: a dequeue
and a store per job, in queue order, then the `waitPop` that returns `false`.  After
them `w` has left its loop and has no further step, the queue is empty, exactly
`jobs.length` stores were made (at the ids of the jobs, in order), and the buffer is the
old one with every job's result stored at its id. -/
theorem worker_drains_and_terminates (resolve : Triplet → String) (jobs : List Triplet)
    (s : Pipeline) (w : Nat)
    (hpc : s.resolveConsumers[w]? = some ResolverPc.atWaitPop)
    (hq : s.input = ⟨jobs, true⟩)
    (hids : ∀ job ∈ jobs, 0 ≤ job.id ∧ job.id < s.output.length) :
    ∃ s1, Pipeline.run resolve s (List.replicate (2 * jobs.length + 1) (Thread.resolver w))
        = some s1
      ∧ s1.resolveConsumers = s.resolveConsumers.set w ResolverPc.exited
      ∧ s1.resolverStep resolve w = none
      ∧ s1.input = ⟨[], true⟩
      ∧ s1.output = storeAll resolve jobs s.output
      ∧ storedIndices s1.history = (jobs.map Triplet.id).reverse ++ storedIndices s.history
      ∧ s1.toPush = s.toPush := by
  induction jobs generalizing s with
  | nil =>
    have hw := lt_length_of_getElem? hpc
    have h1 := resolverStep_drained resolve s w hpc hq
    refine ⟨{ s with resolveConsumers := s.resolveConsumers.set w ResolverPc.exited,
                     history := Event.drained w :: s.history }, ?_, rfl, ?_, hq, rfl, rfl, rfl⟩
    · simp only [List.length_nil, Nat.mul_zero, Nat.zero_add, List.replicate_one,
        Pipeline.run, Pipeline.step, h1]
    · have : (s.resolveConsumers.set w ResolverPc.exited)[w]? = some ResolverPc.exited :=
        List.getElem?_set_self hw
      simp only [Pipeline.resolverStep, this]
  | cons job rest ih =>
    have hw := lt_length_of_getElem? hpc
    have hjob := hids job (List.mem_cons_self _ _)
    have hqueue : s.input.m_queue = job :: rest := by rw [hq]
    have hstop : s.input.m_stopped = true := by rw [hq]
    have h1 := resolverStep_pop resolve s w job rest hpc hqueue
    have hpc1 : (s.resolveConsumers.set w (ResolverPc.atStore job))[w]?
        = some (ResolverPc.atStore job) := List.getElem?_set_self hw
    have h2 := resolverStep_store resolve
      { s with input := ⟨rest, s.input.m_stopped⟩,
               resolveConsumers := s.resolveConsumers.set w (ResolverPc.atStore job),
               history := Event.popped w job :: s.history } w job hpc1 hjob
    have hpool : (s.resolveConsumers.set w (ResolverPc.atStore job)).set w ResolverPc.atWaitPop
        = s.resolveConsumers := by
      rw [List.set_set]
      exact set_of_getElem? hpc
    obtain ⟨s1, hrun, hr1, hr2, hr3, hr4, hr5, hr6⟩ := ih
      { s with input := ⟨rest, s.input.m_stopped⟩,
               output := s.output.set job.id.toNat { result := resolve job },
               resolveConsumers :=
                 (s.resolveConsumers.set w (ResolverPc.atStore job)).set w ResolverPc.atWaitPop,
               history := Event.stored w job.id :: Event.popped w job :: s.history }
      (by simp only [hpool]; exact hpc)
      (by simp only [hstop])
      (fun j hj => by
        simp only [List.length_set]
        exact hids j (List.mem_cons_of_mem _ hj))
    refine ⟨s1, ?_, ?_, hr2, hr3, ?_, ?_, hr6⟩
    · have hlen : 2 * (job :: rest).length + 1 = (2 * rest.length + 1) + 1 + 1 := by
        simp only [List.length_cons]
        omega
      rw [hlen, List.replicate_succ, List.replicate_succ]
      simp only [Pipeline.run, Pipeline.step, h1, h2]
      exact hrun
    · rw [hr1]
      simp only [hpool]
    · rw [hr4]
      rfl
    · rw [hr5]
      simp [storedIndices]

/-- A batch of one job with one worker meets the premises of C23: the worker stores the
job's result, gets `false` and has left its loop after three steps. -/
theorem worker_drains_and_terminates_witness :
    ∃ s1,
      Pipeline.run sampleResolve
          { input := ⟨[{ a := 1, b := 2, c := 1, id := 0 }], true⟩
            output := [{ result := "" }]
            toPush := []
            resolveConsumers := [ResolverPc.atWaitPop]
            history := [] }
          [Thread.resolver 0, Thread.resolver 0, Thread.resolver 0] = some s1
      ∧ s1.resolveConsumers = [ResolverPc.exited]
      ∧ s1.input = ⟨[], true⟩
      ∧ s1.output = [{ result := "2" }] :=
  have h := worker_drains_and_terminates sampleResolve [{ a := 1, b := 2, c := 1, id := 0 }]
    { input := ⟨[{ a := 1, b := 2, c := 1, id := 0 }], true⟩
      output := [{ result := "" }]
      toPush := []
      resolveConsumers := [ResolverPc.atWaitPop]
      history := [] } 0 rfl rfl (by decide)
  match h with
  | ⟨s1, h1, h2, _, h4, h5, _⟩ => ⟨s1, h1, h2, h4, by rw [h5]; decide⟩

/-- The whole pipeline for a single job and a single worker, with the worker blocked on
the empty queue before `shutdown` is called: push, dequeue, store, then the worker has
no step (it waits), `shutdown`, and the worker's `waitPop` returns `false`; the run is
complete. -/
theorem single_job_single_worker_completes :
    ∃ waiting final,
      Pipeline.run sampleResolve (Pipeline.launch 1 [{ a := 1, b := 2, c := 1, id := 0 }] 1)
          [Thread.producer, Thread.resolver 0, Thread.resolver 0] = some waiting
      ∧ waiting.resolverStep sampleResolve 0 = none
      ∧ Pipeline.run sampleResolve waiting [Thread.producer, Thread.resolver 0] = some final
      ∧ final.completed
      ∧ final.output = [{ result := "2" }] :=
  ⟨_, _, rfl, by decide, rfl, by decide, by decide⟩

/-! ## app/main.cpp: the jobs `main` pushes -/

theorem pushed_step (resolve : Triplet → String) (s s1 : Pipeline) (th : Thread)
    (h : s.step resolve th = some s1) :
    (pushedItems s1.history).reverse ++ s1.toPush
      = (pushedItems s.history).reverse ++ s.toPush := by
  cases th with
  | producer =>
    simp only [Pipeline.step, Pipeline.producerStep] at h
    cases hp : s.toPush with
    | nil =>
      rw [hp] at h
      cases hst : s.input.m_stopped with
      | true => simp [hst] at h
      | false =>
        simp only [hst, Bool.false_eq_true, if_false, Option.some.injEq] at h
        subst h
        simp [pushedItems]
    | cons t rest =>
      rw [hp] at h
      simp only [Option.some.injEq] at h
      subst h
      simp [pushedItems]
  | resolver w =>
    simp only [Pipeline.step, Pipeline.resolverStep] at h
    cases hpc : s.resolveConsumers[w]? with
    | none => simp [hpc] at h
    | some pc =>
      cases pc with
      | exited => simp [hpc] at h
      | atWaitPop =>
        simp only [hpc] at h
        cases hpop : s.input.waitPop {} with
        | none => simp [hpop] at h
        | some r =>
          obtain ⟨ok, item, q⟩ := r
          cases ok <;>
            (simp only [hpop, Option.some.injEq] at h
             subst h
             simp [pushedItems])
      | atStore item =>
        simp only [hpc] at h
        cases hst : storeResult s.output item.id (resolve item) with
        | none => simp [hst] at h
        | some storage =>
          simp only [hst, Option.some.injEq] at h
          subst h
          simp [pushedItems]

theorem pushed_run (resolve : Triplet → String) (schedule : List Thread) (s s1 : Pipeline)
    (h : Pipeline.run resolve s schedule = some s1) :
    (pushedItems s1.history).reverse ++ s1.toPush
      = (pushedItems s.history).reverse ++ s.toPush := by
  induction schedule generalizing s with
  | nil =>
    simp only [Pipeline.run, Option.some.injEq] at h
    rw [h]
  | cons th rest ih =>
    simp only [Pipeline.run] at h
    cases hs : s.step resolve th with
    | none => simp [hs] at h
    | some s2 =>
      simp only [hs] at h
      rw [ih s2 h, pushed_step resolve s s2 th hs]

/-- C21, dense and unique identities: in every run of `main` over `N` parsed triplets,
the jobs pushed so far followed by the jobs still to push are the parsed triplets in
list order with `id = i` assigned to the `i`-th, each exactly once; so once nothing is
left to push exactly these `N` jobs were pushed.  The `i`-th job carries the
coefficients of the `i`-th parsed triplet, the ids are `0, ..., N-1` in this order,
without repeats, and each is an index of the result buffer, which keeps its `N`
slots. -/
theorem main_pushes_dense_ids (resolve : Triplet → String) (hardware_concurrency : Nat)
    (triplets : List Triplet) (schedule : List Thread) (s : Pipeline)
    (hrun : Pipeline.run resolve (mainPipeline hardware_concurrency triplets) schedule
      = some s) :
    (pushedItems s.history).reverse ++ s.toPush = pushLoop 0 triplets
    ∧ (s.toPush = [] → (pushedItems s.history).reverse = pushLoop 0 triplets)
    ∧ (pushLoop 0 triplets).length = triplets.length
    ∧ (∀ (i : Nat) (t : Triplet), triplets[i]? = some t →
        (pushLoop 0 triplets)[i]? = some { t with id := (i : Int) })
    ∧ (pushLoop 0 triplets).map Triplet.id = (List.range triplets.length).map Int.ofNat
    ∧ ((pushLoop 0 triplets).map Triplet.id).Nodup
    ∧ s.output.length = triplets.length
    ∧ (∀ job ∈ pushLoop 0 triplets, 0 ≤ job.id ∧ job.id < s.output.length) := by
  have hpushed := pushed_run resolve schedule _ s hrun
  have hinit : (pushedItems (mainPipeline hardware_concurrency triplets).history).reverse
      ++ (mainPipeline hardware_concurrency triplets).toPush = pushLoop 0 triplets := rfl
  rw [hinit] at hpushed
  have hids : (pushLoop 0 triplets).map Triplet.id
      = (List.range triplets.length).map Int.ofNat := by
    rw [pushLoop_ids, List.range_eq_range']
  have hnodup : ((pushLoop 0 triplets).map Triplet.id).Nodup := by
    rw [hids]
    exact (List.nodup_range _).map Int.ofNat_injective
  rw [mainPipeline_eq_launch] at hrun
  have inv := inv_run hnodup schedule (inv_launch resolve _ _ _) hrun
  refine ⟨hpushed, ?_, pushLoop_length 0 triplets, ?_, hids, hnodup, inv.len, ?_⟩
  · intro hnil
    rw [hnil, List.append_nil] at hpushed
    exact hpushed
  · intro i t hit
    rw [pushLoop_getElem?, hit]
    simp
  · intro job hjob
    have hmem : job.id ∈ (List.range triplets.length).map Int.ofNat := by
      rw [← hids]
      exact List.mem_map_of_mem Triplet.id hjob
    obtain ⟨k, hk, hkid⟩ := List.mem_map.mp hmem
    have hklt := List.mem_range.mp hk
    rw [inv.len, ← hkid]
    constructor
    · exact Int.ofNat_nonneg k
    · exact Int.ofNat_lt.mpr hklt

/-- A run of `main` on two parsed triplets (still carrying the default id) in which
both are pushed and `shutdown` is called: the jobs pushed are the two triplets with
ids 0 and 1. -/
theorem main_pushes_dense_ids_witness :
    ∃ s,
      Pipeline.run sampleResolve
          (mainPipeline 2 [{ a := 1, b := -3, c := 2 }, { a := 1, b := 2, c := 1 }])
          [Thread.producer, Thread.producer, Thread.producer] = some s
      ∧ (pushedItems s.history).reverse
          = [{ a := 1, b := -3, c := 2, id := 0 }, { a := 1, b := 2, c := 1, id := 1 }]
      ∧ s.toPush = [] :=
  have hrun : Pipeline.run sampleResolve
      (mainPipeline 2 [{ a := 1, b := -3, c := 2 }, { a := 1, b := 2, c := 1 }])
      [Thread.producer, Thread.producer, Thread.producer]
      = some { mainPipeline 2 [{ a := 1, b := -3, c := 2 }, { a := 1, b := 2, c := 1 }] with
          input := ⟨[{ a := 1, b := -3, c := 2, id := 0 }, { a := 1, b := 2, c := 1, id := 1 }],
            true⟩
          toPush := []
          history := [Event.shutdown, Event.pushed { a := 1, b := 2, c := 1, id := 1 },
            Event.pushed { a := 1, b := -3, c := 2, id := 0 }] } := rfl
  ⟨_, hrun, (main_pushes_dense_ids sampleResolve 2 _ _ _ hrun).2.1 rfl, rfl⟩

end tektask
